import Mathlib

/-!
Verification of the cid-accumulator-client repository.

This file shallowly embeds the core of the client:

* the Merkle Mountain Range (MMR) engine
  (`src/source/accumulator/merkleMountainRange/MerkleMountainRange.ts`):
  `addLeafWithTrail`, `rootCIDWithTrail`, `getRootCIDFromPeaks`, and the static
  inverse `computePreviousRootCIDAndPeaksWithHeights`;
* the DAG resolver `resolveMerkleTreeOrThrow`;
* the live-sync event processing (`processNewLeafEvent` and its DB/MMR
  sub-handlers from `src/source/accumulator/client/syncHelpers.ts`);
* the chain adapter's state-word decoder `parseAccumulatorMetaBits`
  (`src/source/ethereum/abiUtils.ts`);
* the IPFS adapter's remote-pin circuit breaker
  (`src/source/adapters/ipfs/UniversalIpfsAdapter.ts`);
* the concrete codec: minimal dag-cbor encoding, SHA-256, CIDv1 wrapping and
  multibase base32 text form (`src/source/utils/dagCbor.ts`, `codec.ts`,
  `hash.ts`, `CID`), together with the CID verification helpers
  (`verifyCID.ts`).

The MMR engine calls `encodeBlock`, which dag-cbor-encodes a value and hashes
it with SHA-256.  The engine itself is oblivious to the concrete digest: we
embed it over an abstract type `C` of CIDs and an abstract block encoder
`E : NodeF C → C` (the source's `encodeBlock` restricted to the node shapes the
program builds), plus the distinguished `nullCid` constant (the source's
`NULL_CID`).  The concrete encoder (dag-cbor + SHA-256 + CIDv1) is provided
below and instantiates the abstract development; a free (term-algebra)
instantiation is used to produce fully computable witnesses.

The TypeScript `while` loops that walk the bits of `leafCount` are embedded as
structurally recursive functions with an explicit fuel argument; the engine's
internal call sites pass fuel that is provably sufficient (theorems below show
the fuel-exhaustion branch is unreachable there), so the embedding agrees with
the unbounded source loops.
-/

set_option maxRecDepth 10000
set_option linter.unusedSectionVars false

deriving instance DecidableEq for Except

namespace CidAcc

/-- Raw byte sequences (each entry intended < 256). -/
abbrev Bytes := List Nat

/-- The dag-cbor value shapes this system encodes and decodes
(`IpldNode` in `resolveMerkleTree.ts` plus the JSON `null` used for the
empty-MMR root): a `Bytes` leaf, an `{L, R}` link node, a bare CID link,
and `null`. -/
inductive NodeF (C : Type) where
  | bytes (b : Bytes)
  | link (l r : C)
  | cidLink (c : C)
  | nullNode
  deriving DecidableEq

/-- The MMR engine state (`MerkleMountainRange`): the peak CIDs in
left-to-right order and the number of leaves appended so far.  No heights are
stored; they are implicit in `leafCount`. -/
structure Mmr (C : Type) where
  peaks : List C
  leafCount : Nat
  deriving DecidableEq

/-- A peak together with its height (`PeakWithHeight` in `types.ts`).
Heights are `Int` because the source computes `mergedPeak.height - 1` with
JavaScript number arithmetic. -/
structure PeakWithHeight (C : Type) where
  cid : C
  height : Int
  deriving DecidableEq

section AbstractEngine

variable {C : Type} [DecidableEq C] (E : NodeF C → C) (nullCid : C)

/-- The bagging loop of `getRootCIDFromPeaks`: starting from `current`, fold
each further peak `p` into `current := encodeBlock({L: current, R: p}).cid`. -/
def bagPeaks : C → List C → C
  | current, [] => current
  | current, p :: rest => bagPeaks (E (.link current p)) rest

/-- `getRootCIDFromPeaks` (mmrUtils): left-to-right bagging of the peak list;
the `NULL_CID` constant if there are no peaks.  (The source's separate
`length === 1` early return coincides with the general loop.) -/
def getRootCIDFromPeaks (peaks : List C) : C :=
  match peaks with
  | [] => nullCid
  | p :: rest => bagPeaks E p rest

/-- The bagging loop of `rootCIDWithTrail`, also recording each link block
`{L: current, R: p}` in the trail, in creation order. -/
def bagPeaksWithTrail : C → List C → List (C × NodeF C) → C × List (C × NodeF C)
  | current, [], trail => (current, trail)
  | current, p :: rest, trail =>
      bagPeaksWithTrail (E (.link current p)) rest (trail ++ [(E (.link current p), .link current p)])

/-- `MerkleMountainRange.rootCIDWithTrail`: the root CID together with the
bagging-link trail.  Empty peak list: `(NULL_CID, [])`; a single peak is its
own root with an empty trail. -/
def rootCIDWithTrail (peaks : List C) : C × List (C × NodeF C) :=
  match peaks with
  | [] => (nullCid, [])
  | p :: rest => bagPeaksWithTrail E p rest []

/-- The merge cascade of `addLeafWithTrail`:
`while ((leafCount >> height) & 1) { left = peaks.pop(); merged =
encodeBlock({L: left, R: carry}); trail.push(merged); carry = merged.cid;
height++ }`.
Returns (remaining peaks, final carry, merge trail in creation order, popped
left inputs in emission order — lowest height first).  `fuel` makes the loop
structurally recursive; callers pass `leafCount + 1`, which the lemma
`mergeCascade_spec` shows is always sufficient.
The shift here is on unbounded naturals; `mergeCascadeJS` below models the
exact JavaScript ToInt32/shift-count-mod-32 coercions of `>>`.  The two
agree whenever `leafCount` has fewer than 32 trailing one-bits
(`mergeCascadeJS_agree`) — in particular at every leaf count except those
congruent to `2^32 − 1` modulo `2^32`. -/
def mergeCascade : Nat → Nat → Nat → List C → C →
    Except String (List C × C × List (C × NodeF C) × List C)
  | 0, _, _, _, _ => .error "cascade fuel exhausted"
  | fuel + 1, leafCount, height, peaks, carry =>
    if (leafCount >>> height) &&& 1 = 1 then
      match peaks.getLast? with
      | none => .error "MMR structure error: no peak to merge"
      | some left =>
          (mergeCascade fuel leafCount (height + 1) peaks.dropLast (E (.link left carry))).map
            (fun r =>
              (r.1, r.2.1,
               (E (.link left carry), NodeF.link left carry) :: r.2.2.1,
               left :: r.2.2.2))
    else
      .ok (peaks, carry, [], [])

/-- `MerkleMountainRange.addLeafWithTrail`, extended to also return the list
of left inputs emitted during the merge cascade (the source records these
only in the on-chain event; the trail itself is returned unchanged).
Fails when `leafIndex ≠ leafCount` ("Expected leafIndex … but got …"),
before any state is touched. -/
def addLeafFull (s : Mmr C) (leafIndex : Nat) (newData : Bytes) :
    Except String (Mmr C × List (C × NodeF C) × List C) :=
  if s.leafCount ≠ leafIndex then
    .error "Expected leafIndex leafCount but got leafIndex"
  else
    (mergeCascade E (s.leafCount + 1) s.leafCount 0 s.peaks (E (.bytes newData))).map
      (fun r =>
        let peaks' := r.1 ++ [r.2.1]
        let bag := rootCIDWithTrail E nullCid peaks'
        (⟨peaks', s.leafCount + 1⟩,
         (E (.bytes newData), NodeF.bytes newData) :: r.2.2.1 ++ bag.2,
         r.2.2.2))

/-- `addLeafWithTrail` as the source exposes it: new state and trail. -/
def addLeafWithTrail (s : Mmr C) (leafIndex : Nat) (newData : Bytes) :
    Except String (Mmr C × List (C × NodeF C)) :=
  (addLeafFull E nullCid s leafIndex newData).map (fun r => (r.1, r.2.1))

/-- The merge cascade with the exact JavaScript shift semantics of
`(this.leafCount >> height) & 1`: `>>` coerces its left operand with ToInt32
(keeping the low 32 bits, two's complement) and takes the shift count mod 32,
and bit 0 of an arithmetic right shift by `h` is bit `h mod 32` of those low
32 bits — so the loop condition is
`((leafCount % 2^32) >>> (height % 32)) &&& 1 = 1`.
For `leafCount % 2^32 = 2^32 − 1` the condition never clears (at `height =
32` it wraps back to bit 0), so the loop pops until no peak is left and
throws; everywhere else it agrees with the unbounded-shift `mergeCascade`
(lemma `mergeCascadeJS_agree`). -/
def mergeCascadeJS : Nat → Nat → Nat → List C → C →
    Except String (List C × C × List (C × NodeF C) × List C)
  | 0, _, _, _, _ => .error "cascade fuel exhausted"
  | fuel + 1, leafCount, height, peaks, carry =>
    if ((leafCount % 2 ^ 32) >>> (height % 32)) &&& 1 = 1 then
      match peaks.getLast? with
      | none => .error "MMR structure error: no peak to merge"
      | some left =>
          (mergeCascadeJS fuel leafCount (height + 1) peaks.dropLast (E (.link left carry))).map
            (fun r =>
              (r.1, r.2.1,
               (E (.link left carry), NodeF.link left carry) :: r.2.2.1,
               left :: r.2.2.2))
    else
      .ok (peaks, carry, [], [])

/-- `addLeafFull` over the JavaScript-shift cascade: identical to
`addLeafFull` except for the loop's bit test. -/
def addLeafFullJS (s : Mmr C) (leafIndex : Nat) (newData : Bytes) :
    Except String (Mmr C × List (C × NodeF C) × List C) :=
  if s.leafCount ≠ leafIndex then
    .error "Expected leafIndex leafCount but got leafIndex"
  else
    (mergeCascadeJS E (s.leafCount + 1) s.leafCount 0 s.peaks (E (.bytes newData))).map
      (fun r =>
        let peaks' := r.1 ++ [r.2.1]
        let bag := rootCIDWithTrail E nullCid peaks'
        (⟨peaks', s.leafCount + 1⟩,
         (E (.bytes newData), NodeF.bytes newData) :: r.2.2.1 ++ bag.2,
         r.2.2.2))

/-- `addLeafWithTrail` over the JavaScript-shift cascade. -/
def addLeafWithTrailJS (s : Mmr C) (leafIndex : Nat) (newData : Bytes) :
    Except String (Mmr C × List (C × NodeF C)) :=
  (addLeafFullJS E nullCid s leafIndex newData).map (fun r => (r.1, r.2.1))

/-- The unmerge loop of `computePreviousRootCIDAndPeaksWithHeights`
(`for (i = lefts.length - 1; i >= 0; i--)`): the list argument is the
reversed left-input list.  Each step pops the last peak and pushes
`{cid: lefts[i], height: h-1}` then `{cid: mergedPeak.cid, height: h-1}`. -/
def unmergeSteps : List C → List (PeakWithHeight C) →
    Except String (List (PeakWithHeight C))
  | [], peaks => .ok peaks
  | left :: rest, peaks =>
    match peaks.getLast? with
    | none => .error "No mergedPeak to unmerge"
    | some mergedPeak =>
        unmergeSteps rest
          (peaks.dropLast ++
            [⟨left, mergedPeak.height - 1⟩, ⟨mergedPeak.cid, mergedPeak.height - 1⟩])

/-- `computePreviousRootCIDAndPeaksWithHeights` (mmrUtils): reconstruct the
pre-append root CID and peak set from the post-append peaks-with-heights, the
appended payload and the event's left inputs.  The source compares CIDs via
`toString()` equality; CID text forms are injective, so this is `=` on `C`. -/
def computePreviousRootCIDAndPeaksWithHeights
    (currentPeaksWithHeights : List (PeakWithHeight C)) (newData : Bytes)
    (mergeLeftHashesDuringLatestMerge : List C) :
    Except String (C × List (PeakWithHeight C)) :=
  if currentPeaksWithHeights = [] then .ok (nullCid, [])
  else if mergeLeftHashesDuringLatestMerge = [] then
    let previousPeaksWithHeights := currentPeaksWithHeights.filter (fun p => p.height ≠ 0)
    .ok (getRootCIDFromPeaks E nullCid (previousPeaksWithHeights.map (·.cid)),
         previousPeaksWithHeights)
  else
    (unmergeSteps mergeLeftHashesDuringLatestMerge.reverse currentPeaksWithHeights).map
      (fun reconstructed =>
        let newLeafCID := E (.bytes newData)
        let reconstructed' :=
          reconstructed.filter (fun p => ¬(p.height = 0 ∧ p.cid = newLeafCID))
        (getRootCIDFromPeaks E nullCid (reconstructed'.map (·.cid)), reconstructed'))

/-- `resolveMerkleTreeOrThrow` (resolveMerkleTree.ts): depth-first resolution
of a root CID into the ordered list of leaf payloads.  The block source is
abstracted as a partial map from CIDs to the dag-cbor values their stored
bytes decode to (`dagCbor.decode(blockstore.getBlock(cid))`).  `fuel` bounds
the recursion depth of the embedding; the source recursion is unbounded. -/
def resolveMerkleTreeOrThrow (store : C → Option (NodeF C)) :
    Nat → C → Except String (List Bytes)
  | 0, _ => .error "recursion fuel exhausted"
  | fuel + 1, cid =>
    match store cid with
    | none => .error "Block with CID not found in blockstore"
    | some (.bytes b) => .ok [b]
    | some (.cidLink c) => resolveMerkleTreeOrThrow store fuel c
    | some (.link l r) => do
        let L ← resolveMerkleTreeOrThrow store fuel l
        let R ← resolveMerkleTreeOrThrow store fuel r
        .ok (L ++ R)
    | some .nullNode => .error "Unexpected node structure"

/-- The freshly constructed engine state (`new MerkleMountainRange()`). -/
def emptyMmr : Mmr C := ⟨[], 0⟩

/-- Append the given payloads in order, each at the index the client uses
(`leafIndex = leafCount`), accumulating every emitted trail pair. -/
def buildMmrFrom : Mmr C → List (C × NodeF C) → List Bytes →
    Except String (Mmr C × List (C × NodeF C))
  | s, acc, [] => .ok (s, acc)
  | s, acc, p :: ps => do
      let r ← addLeafFull E nullCid s s.leafCount p
      buildMmrFrom r.1 (acc ++ r.2.1) ps

/-- Build an MMR by appending `payloads` in order starting from the empty
engine, collecting the full trail. -/
def buildMmr (payloads : List Bytes) : Except String (Mmr C × List (C × NodeF C)) :=
  buildMmrFrom E nullCid emptyMmr [] payloads

/-- MMR states reachable from the empty engine by successful appends (each at
the in-order index `leafCount`). -/
inductive Reachable : Mmr C → Prop where
  | empty : Reachable emptyMmr
  | step {s s' : Mmr C} {p : Bytes} {tr : List (C × NodeF C)} {lefts : List C} :
      Reachable s → addLeafFull E nullCid s s.leafCount p = .ok (s', tr, lefts) →
      Reachable s'

end AbstractEngine

/-- Fuelled kernel of `popcount`: number of 1-bits of `m`, by recursion on a
fuel bound (any `fuel ≥ m` is sufficient). -/
def pcF : Nat → Nat → Nat
  | _, 0 => 0
  | 0, _ + 1 => 0
  | f + 1, m + 1 => pcF f ((m + 1) / 2) + (m + 1) % 2

/-- Number of 1-bits in the binary representation of `n`. -/
def popcount (n : Nat) : Nat := pcF n n

/-- Fuelled kernel of `trailingOnes`. -/
def toF : Nat → Nat → Nat
  | _, 0 => 0
  | 0, _ + 1 => 0
  | f + 1, m + 1 => if (m + 1) % 2 = 1 then toF f ((m + 1) / 2) + 1 else 0

/-- Number of trailing 1-bits of `n`: exactly the number of merges an append
performs when the engine holds `n` leaves. -/
def trailingOnes (n : Nat) : Nat := toF n n

/-- Fuelled kernel of `bitPositionsAsc`. -/
def bitPosF : Nat → Nat → Nat → List Nat
  | _, 0, _ => []
  | 0, _ + 1, _ => []
  | f + 1, m + 1, base =>
      if (m + 1) % 2 = 1 then base :: bitPosF f ((m + 1) / 2) (base + 1)
      else bitPosF f ((m + 1) / 2) (base + 1)

/-- The positions of the 1-bits of `n`, in increasing order. -/
def bitPositionsAsc (n : Nat) : List Nat := bitPosF n n 0

/-- The implicit peak heights of an MMR with `n` leaves: the 1-bit positions
of `n` in decreasing order (left-to-right peak order). -/
def bitPositionsDesc (n : Nat) : List Nat := (bitPositionsAsc n).reverse

/-- The engine's peaks paired with their implicit heights (the heights the
client derives from the on-chain `leafCount`; `mmr.peaks` stores no
heights). -/
def peaksWithHeights {C : Type} (s : Mmr C) : List (PeakWithHeight C) :=
  List.zipWith (fun c h => ⟨c, (h : Int)⟩) s.peaks (bitPositionsDesc s.leafCount)

/-! ## Concrete codec

`hash.ts` (SHA-256), `dagCbor.ts` (minimal dag-cbor encode), `codec.ts`
(`encodeBlock`, multihash and CIDv1 wrapping) and the multibase base32
lowercase text form of CIDv1 (`CID.toString()` / `CID.parse`).  Bytes are
`List Nat` with entries < 256.  Concrete CIDs are their 36-byte binary form
`01 71 12 20 <digest>`. -/

/-- Truncation to a 32-bit word. -/
def w32 (x : Nat) : Nat := x % 4294967296

/-- 32-bit right rotation by `n` (for `0 < n < 32`). -/
def rotr (n x : Nat) : Nat := w32 (x / 2 ^ n + x * 2 ^ (32 - n))

/-- The SHA-256 round constants (decimal). -/
def shaK : List Nat :=
  [1116352408, 1899447441, 3049323471, 3921009573, 961987163, 1508970993,
   2453635748, 2870763221, 3624381080, 310598401, 607225278, 1426881987,
   1925078388, 2162078206, 2614888103, 3248222580, 3835390401, 4022224774,
   264347078, 604807628, 770255983, 1249150122, 1555081692, 1996064986,
   2554220882, 2821834349, 2952996808, 3210313671, 3336571891, 3584528711,
   113926993, 338241895, 666307205, 773529912, 1294757372, 1396182291,
   1695183700, 1986661051, 2177026350, 2456956037, 2730485921, 2820302411,
   3259730800, 3345764771, 3516065817, 3600352804, 4094571909, 275423344,
   430227734, 506948616, 659060556, 883997877, 958139571, 1322822218,
   1537002063, 1747873779, 1955562222, 2024104815, 2227730452, 2361852424,
   2428436474, 2756734187, 3204031479, 3329325298]

/-- The SHA-256 initial hash state (decimal). -/
def shaH0 : List Nat :=
  [1779033703, 3144134277, 1013904242, 2773480762,
   1359893119, 2600822924, 528734635, 1541459225]

/-- Big-endian bytes of `x`, `k` bytes wide. -/
def beBytes (k x : Nat) : Bytes :=
  (List.range k).map (fun i => x / 2 ^ (8 * (k - 1 - i)) % 256)

/-- Group a byte list into big-endian 32-bit words (groups of 4). -/
def toWords : Bytes → List Nat
  | b0 :: b1 :: b2 :: b3 :: rest =>
      (b0 * 2 ^ 24 + b1 * 2 ^ 16 + b2 * 2 ^ 8 + b3) :: toWords rest
  | _ => []

/-- The SHA-256 message-schedule extension of one 16-word block to 64 words. -/
def shaSchedule (block : List Nat) : List Nat :=
  (List.range 48).foldl
    (fun acc _ =>
      let s0 :=
        (rotr 7 (acc.getD (acc.length - 15) 0)) ^^^ (rotr 18 (acc.getD (acc.length - 15) 0)) ^^^
          (acc.getD (acc.length - 15) 0) / 2 ^ 3
      let s1 :=
        (rotr 17 (acc.getD (acc.length - 2) 0)) ^^^ (rotr 19 (acc.getD (acc.length - 2) 0)) ^^^
          (acc.getD (acc.length - 2) 0) / 2 ^ 10
      acc ++ [w32 (acc.getD (acc.length - 16) 0 + s0 + acc.getD (acc.length - 7) 0 + s1)])
    block

/-- One SHA-256 round. -/
def shaRound (st : List Nat) (k wt : Nat) : List Nat :=
  let a := st.getD 0 0
  let b := st.getD 1 0
  let c := st.getD 2 0
  let e := st.getD 4 0
  let f := st.getD 5 0
  let g := st.getD 6 0
  let bigS1 := (rotr 6 e) ^^^ (rotr 11 e) ^^^ (rotr 25 e)
  let ch := (e &&& f) ^^^ ((4294967295 ^^^ e) &&& g)
  let t1 := w32 (st.getD 7 0 + bigS1 + ch + k + wt)
  let bigS0 := (rotr 2 a) ^^^ (rotr 13 a) ^^^ (rotr 22 a)
  let maj := (a &&& b) ^^^ (a &&& c) ^^^ (b &&& c)
  let t2 := w32 (bigS0 + maj)
  [w32 (t1 + t2), a, b, c, w32 (st.getD 3 0 + t1), e, f, g]

/-- SHA-256 compression of one 16-word block into the running state. -/
def shaCompress (h block : List Nat) : List Nat :=
  let w := shaSchedule block
  let st := (shaK.zip w).foldl (fun st kw => shaRound st kw.1 kw.2) h
  List.zipWith (fun x y => w32 (x + y)) h st

/-- SHA-256 of a byte sequence (`hash.ts` / Web Crypto `SHA-256`). -/
def sha256 (msg : Bytes) : Bytes :=
  let padded :=
    msg ++ 0x80 :: List.replicate ((64 - (msg.length + 9) % 64) % 64) 0 ++
      beBytes 8 (8 * msg.length)
  let ws := toWords padded
  let final :=
    (List.range (ws.length / 16)).foldl
      (fun h i => shaCompress h ((ws.drop (16 * i)).take 16)) shaH0
  (final.map (beBytes 4)).flatten

/-- The RFC 4648 lowercase base32 alphabet used by multibase `b`. -/
def base32Alphabet : List Char := "abcdefghijklmnopqrstuvwxyz234567".data

/-- The 8 bits of a byte, most significant first. -/
def byteBitsBE (b : Nat) : List Bool :=
  (List.range 8).map (fun i => b / 2 ^ (7 - i) % 2 = 1)

/-- Lowercase unpadded base32 of a byte sequence (bit stream in 5-bit groups,
final group zero-padded). -/
def base32Lower (bytes : Bytes) : List Char :=
  let bits := (bytes.map byteBitsBE).flatten
  (List.range ((bits.length + 4) / 5)).map
    (fun i =>
      base32Alphabet.getD
        ((List.range 5).foldl
          (fun v j => 2 * v + (if bits.getD (5 * i + j) false then 1 else 0)) 0)
        'a')

/-- `CID.toString()`: multibase prefix `b` followed by base32 of the CID's
binary form. -/
def cidToString (cid : Bytes) : String := String.mk ('b' :: base32Lower cid)

/-- Index of a character in the base32 alphabet. -/
def base32Val (c : Char) : Nat := base32Alphabet.indexOf c

/-- The 5 bits of a base32 symbol, most significant first. -/
def fiveBitsBE (v : Nat) : List Bool :=
  (List.range 5).map (fun i => v / 2 ^ (4 - i) % 2 = 1)

/-- `CID.parse` of a multibase-`b` CID text form: drop the prefix, decode the
base32 bit stream and regroup into bytes (trailing padding bits dropped). -/
def cidParse (s : String) : Bytes :=
  let bits := ((s.data.drop 1).map (fun c => fiveBitsBE (base32Val c))).flatten
  (List.range (bits.length / 8)).map
    (fun i =>
      (List.range 8).foldl
        (fun v j => 2 * v + (if bits.getD (8 * i + j) false then 1 else 0)) 0)

/-- `NULL_CID` (`constants.ts`): the canonical dag-cbor/sha2-256/CIDv1 null
node CID, parsed from its text form. -/
def NULL_CID : Bytes :=
  cidParse "bafyreifqwkmiw256ojf2zws6tzjeonw6bpd5vza4i22ccpcq4hjv2ts7cm"

/-- The text form of `NULL_CID` as written in `constants.ts`. -/
def NULL_CID_STR : String := "bafyreifqwkmiw256ojf2zws6tzjeonw6bpd5vza4i22ccpcq4hjv2ts7cm"

/-- `encodeUint` of `dagCbor.ts`: CBOR header for value `val` with major type
`mt` (1/2/3/5-byte encodings; larger values throw in the source and do not
occur here). -/
def encodeUintHdr (mt val : Nat) : Bytes :=
  if val < 24 then [(mt <<< 5) ||| val]
  else if val < 0x100 then [(mt <<< 5) ||| 24, val]
  else if val < 0x10000 then [(mt <<< 5) ||| 25, val >>> 8, val &&& 0xff]
  else if val < 0x100000000 then
    [(mt <<< 5) ||| 26, (val >>> 24) &&& 0xff, (val >>> 16) &&& 0xff, (val >>> 8) &&& 0xff,
     val &&& 0xff]
  else []

/-- dag-cbor encoding of a CID link: tag 42 carrying a byte string of `0x00`
followed by the CID's binary form. -/
def encodeCidTag (cid : Bytes) : Bytes :=
  encodeUintHdr 6 42 ++ encodeUintHdr 2 (cid.length + 1) ++ 0 :: cid

/-- `dagCbor.encode` (`dagCbor.ts`) restricted to the value shapes this
program encodes: byte strings, `{L, R}` maps (keys encoded in insertion
order `"L"`, `"R"`), bare CID links, and `null` (`0xf6`). -/
def dagCborEncode : NodeF Bytes → Bytes
  | .bytes b => encodeUintHdr 2 b.length ++ b
  | .link l r =>
      encodeUintHdr 5 2 ++
        (encodeUintHdr 3 1 ++ [0x4c]) ++ encodeCidTag l ++
        (encodeUintHdr 3 1 ++ [0x52]) ++ encodeCidTag r
  | .cidLink c => encodeCidTag c
  | .nullNode => [0xf6]

/-- CIDv1 binary form over a sha2-256 digest: `01 71 12 20 <digest>`
(`CID.createV1(0x71, hashToMultiformatsDigest(0x12, hash))`). -/
def cidBytesOf (digest : Bytes) : Bytes := 0x01 :: 0x71 :: 0x12 :: 0x20 :: digest

/-- `encodeBlock` (`codec.ts`), concrete: dag-cbor encode, SHA-256, CIDv1
wrap.  This is the concrete instance of the abstract encoder `E`. -/
def encC (n : NodeF Bytes) : Bytes := cidBytesOf (sha256 (dagCborEncode n))

/-- `verifyCIDAgainstDagCborEncodedData` (`verifyCID.ts`): recompute the CID
of already-encoded data and compare text forms with the expected CID. -/
def verifyCIDAgainstDagCborEncodedData (dagCborEncodedData expectedCID : Bytes) : Bool :=
  cidToString (cidBytesOf (sha256 dagCborEncodedData)) == cidToString expectedCID

/-- `verifyCIDAgainstDagCborEncodedDataOrThrow`: same recomputation, failing
with an error when the text forms differ. -/
def verifyCIDAgainstDagCborEncodedDataOrThrow (dagCborEncodedData expectedCID : Bytes) :
    Except String Unit :=
  if cidToString (cidBytesOf (sha256 dagCborEncodedData)) ≠ cidToString expectedCID then
    .error "CID/Data pair is invalid"
  else .ok ()

/-- `verifyCIDAgainstRawUnencodedEncodedData`: dag-cbor-encode the raw
payload, recompute its CID, and return
`computedCID.toString() !== expectedCID.toString()` — note the source returns
the NEGATED comparison. -/
def verifyCIDAgainstRawUnencodedEncodedData (rawUnencodedData expectedCID : Bytes) : Bool :=
  cidToString (cidBytesOf (sha256 (dagCborEncode (.bytes rawUnencodedData)))) !=
    cidToString expectedCID

/-- `verifyCIDAgainstRawUnencodedEncodedDataOrThrow`: encode the raw payload,
recompute the CID, and fail when the text forms differ. -/
def verifyCIDAgainstRawUnencodedEncodedDataOrThrow (rawUnencodedData expectedCID : Bytes) :
    Except String Unit :=
  if cidToString (cidBytesOf (sha256 (dagCborEncode (.bytes rawUnencodedData)))) ≠
      cidToString expectedCID then
    .error "CID/Data pair is invalid"
  else .ok ()

/-- Lowercase hex string of a byte sequence (`uint8ArrayToHexString`,
`codec.ts`): two hex digits per byte, no prefix. -/
def uint8ArrayToHexString (bytes : Bytes) : String :=
  String.mk
    (bytes.flatMap (fun b =>
      ["0123456789abcdef".data.getD (b / 16) '0', "0123456789abcdef".data.getD (b % 16) '0']))

/-- `AccumulatorMetadata` (`types.ts`): the decoded fields of the packed
on-chain state word. -/
structure AccumulatorMetadata where
  peakHeights : List Nat
  peakCount : Nat
  leafCount : Nat
  previousInsertBlockNumber : Nat
  deployBlockNumber : Nat
  deriving DecidableEq

/-- `parseAccumulatorMetaBits` (`abiUtils.ts`): unpack the 256-bit state word
via shifts and masks exactly as the source does (BigInt arithmetic is exact;
the `Number(...)` conversions are exact because every field is < 2^32). -/
def parseAccumulatorMetaBits (mmrMetaBits : Nat) : AccumulatorMetadata :=
  { peakHeights := (List.range 32).map (fun i => (mmrMetaBits >>> (i * 5)) &&& 0x1f)
    peakCount := (mmrMetaBits >>> 160) &&& 0x1f
    leafCount := (mmrMetaBits >>> 165) &&& 0xffffffff
    previousInsertBlockNumber := (mmrMetaBits >>> 197) &&& 0xffffffff
    deployBlockNumber := (mmrMetaBits >>> 229) &&& 0x7ffffff }

/-! ## Storage and live-sync event processing

`StorageAdapter` (string-keyed key/value store), the leaf-record helpers of
`storageHelpers.ts`, `commitLeafToMMR` (`mmrHelpers.ts`) and the live-sync
handlers `processNewLeafEvent` / `processNewLeafEventForDB` /
`processNewLeafEventForMMR` (`syncHelpers.ts`).

String serialization of events and peak arrays (`JSON.stringify`-based
helpers in `codec.ts`) is irrelevant to the claims under verification and is
abstracted as parameters; `newData` hex serialization is concrete.  External
RPC (the walk-back log fetch) is an oracle parameter.  The trailing
root-comparison sanity check of `processNewLeafEvent` only reads chain state
and logs a warning — it mutates neither the DB nor the MMR and runs after the
subscriber loop, so it is not part of the state/notification semantics. -/

/-- Hex-digit value (`parseInt(c, 16)` on lowercase hex). -/
def hexCharVal (c : Char) : Nat :=
  if '0' ≤ c ∧ c ≤ '9' then c.toNat - 48
  else if 'a' ≤ c ∧ c ≤ 'f' then c.toNat - 87
  else 0

/-- `hexStringToUint8Array` (`codec.ts`): two hex digits per byte. -/
def hexStringToUint8Array (s : String) : Bytes :=
  (List.range (s.length / 2)).map
    (fun i => 16 * hexCharVal (s.data.getD (2 * i) '0') + hexCharVal (s.data.getD (2 * i + 1) '0'))

/-- The key/value store behind a `StorageAdapter` (a JS `Map` of strings:
insertion-ordered entries with unique keys). -/
structure Store where
  entries : List (String × String)
  deriving DecidableEq

/-- `get`: the value at a key, if present. -/
def Store.get (st : Store) (k : String) : Option String :=
  (st.entries.find? (fun e => e.1 == k)).map (·.2)

/-- `put`: insert or overwrite the value at a key (JS `Map.set`). -/
def Store.put (st : Store) (k v : String) : Store :=
  if st.entries.any (fun e => e.1 == k) then
    ⟨st.entries.map (fun e => if e.1 == k then (k, v) else e)⟩
  else ⟨st.entries ++ [(k, v)]⟩

/-- The sharded leaf-record key `leaf:{i}:{field}`. -/
def leafKey (i : Nat) (field : String) : String :=
  "leaf:" ++ toString i ++ ":" ++ field

/-- Iteration kernel of the contiguity probe: starting at index `i`, advance
while `leaf:{i}:newData` exists; return the last present index (`i − 1` when
`i` itself is absent).  `fuel` bounds the scan; callers pass more fuel than
the store has entries, which a contiguous run can never exhaust. -/
def hclAux (st : Store) : Nat → Nat → Int
  | 0, i => (i : Int) - 1
  | f + 1, i =>
    if (st.get (leafKey i "newData")).isSome then hclAux st f (i + 1) else (i : Int) - 1

/-- `getHighestContiguousLeafIndexWithData`: the largest `N` such that
`leaf:0:newData` … `leaf:N:newData` all exist; `−1` when `leaf:0:newData` is
absent. -/
def Store.highestContiguousLeafIndexWithData (st : Store) : Int :=
  hclAux st (st.entries.length + 1) 0

/-- `NormalizedLeafInsertEvent` (`types.ts`): a decoded `LeafAppended` log. -/
structure LeafEvent (C : Type) where
  leafIndex : Nat
  previousInsertBlockNumber : Nat
  newData : Bytes
  leftInputs : List C
  blockNumber : Nat
  transactionHash : String
  removed : Bool

/-- `LeafRecord` (`types.ts`): the per-leaf data stored in the DB. -/
structure LeafRecord (C : Type) where
  newData : Bytes
  event : Option (LeafEvent C)
  blockNumber : Option Nat
  rootCid : Option C
  peaksWithHeights : Option (List (PeakWithHeight C))

section SyncModel

variable {C : Type} [DecidableEq C] (E : NodeF C → C) (nullCid : C)
variable (cidToText : C → String)
variable (eventToString : LeafEvent C → String)
variable (peaksToString : List (PeakWithHeight C) → String)
variable (pairToString : C × NodeF C → String)
variable (walkBack : Nat → Nat → Nat → Except String (List (LeafEvent C)))

/-- `putLeafRecordInDB` (`storageHelpers.ts`): store `newData` as hex under
`leaf:{i}:newData` and each present optional field under its own key. -/
def putLeafRecordInDB (st : Store) (leafIndex : Nat) (value : LeafRecord C) : Store :=
  let st1 := st.put (leafKey leafIndex "newData") (uint8ArrayToHexString value.newData)
  let st2 := match value.event with
    | some ev => st1.put (leafKey leafIndex "event") (eventToString ev)
    | none => st1
  let st3 := match value.blockNumber with
    | some bn => st2.put (leafKey leafIndex "blockNumber") (toString bn)
    | none => st2
  let st4 := match value.rootCid with
    | some rc => st3.put (leafKey leafIndex "rootCid") (cidToText rc)
    | none => st3
  match value.peaksWithHeights with
  | some ps => st4.put (leafKey leafIndex "peaksWithHeights") (peaksToString ps)
  | none => st4

/-- The `newData` field of `getLeafRecord` (`storageHelpers.ts`): present iff
`leaf:{i}:newData` is stored; hex-decoded.  (The record's other fields do not
influence the handlers modeled here.) -/
def getLeafRecordNewData (st : Store) (leafIndex : Nat) : Option Bytes :=
  (st.get (leafKey leafIndex "newData")).map hexStringToUint8Array

/-- `appendTrailToDB` (`storageHelpers.ts`): read `dag:trail:maxIndex`
(−1 when absent), then for each pair: skip it if CID verification fails
(warn-and-continue) or if its `cid:{cid}` dedup sentinel exists; otherwise
assign the next index and write the pair and the sentinel.  Finally write the
new max index.  Verification recomputes the CID of the encoded block, which
in this embedding is `E` applied to the decoded node. -/
def appendTrailToDB (st : Store) (trail : List (C × NodeF C)) : Store :=
  let start : Int := match st.get "dag:trail:maxIndex" with
    | some s => (s.toInt?).getD (-1)
    | none => -1
  let out := trail.foldl
    (fun (acc : Store × Int) pair =>
      if E pair.2 ≠ pair.1 then acc
      else if (acc.1.get ("cid:" ++ cidToText pair.1)).isSome then acc
      else
        let mi := acc.2 + 1
        ((acc.1.put ("dag:trail:index:" ++ toString mi) (pairToString pair)).put
           ("cid:" ++ cidToText pair.1) "1",
         mi))
    (st, start)
  out.1.put "dag:trail:maxIndex" (toString out.2)

/-- `commitLeafToMMR` (`mmrHelpers.ts`): append the leaf to the MMR and store
the emitted trail in the DB. -/
def commitLeafToMMR (mmr : Mmr C) (st : Store) (leafIndex : Nat) (newData : Bytes) :
    Except String (Mmr C × Store) :=
  (addLeafWithTrail E nullCid mmr leafIndex newData).map
    (fun r => (r.1, appendTrailToDB E cidToText pairToString st r.2))

/-- `processNewLeafEventForDB` (`syncHelpers.ts`): no-op when the event's
index is already within the DB's contiguous range; walk back through
`previousInsertBlockNumber` pointers for any missing intermediate events and
process them first (oldest-first); finally store the event's leaf record.
`fuel` bounds the recursion of the embedding. -/
def processNewLeafEventForDB : Nat → Store → LeafEvent C → Except String Store
  | 0, _, _ => .error "walk-back recursion fuel exhausted"
  | fuel + 1, st, event =>
    let highest := st.highestContiguousLeafIndexWithData
    if (event.leafIndex : Int) ≤ highest then .ok st
    else do
      let st' ←
        if (event.leafIndex : Int) > highest + 1 then do
          let pastEvents ←
            walkBack (event.leafIndex - 1) event.previousInsertBlockNumber (highest + 1).toNat
          pastEvents.foldlM
            (fun acc e =>
              processNewLeafEventForDB fuel acc e)
            st
        else pure st
      pure (putLeafRecordInDB cidToText eventToString peaksToString st' event.leafIndex
        { newData := event.newData, event := some event, blockNumber := some event.blockNumber,
          rootCid := none, peaksWithHeights := none })

/-- `processNewLeafEventForMMR` (`syncHelpers.ts`): no-op when the leaf is
already committed (`leafIndex ≤ leafCount − 1`); otherwise read any missing
lower-indexed payloads from the DB (failing when absent), commit them first,
then commit this leaf via `commitLeafToMMR`. -/
def processNewLeafEventForMMR : Nat → Mmr C → Store → Nat → Bytes →
    Except String (Mmr C × Store)
  | 0, _, _, _, _ => .error "backfill recursion fuel exhausted"
  | fuel + 1, mmr, st, leafIndex, newData =>
    let highestCommitted : Int := (mmr.leafCount : Int) - 1
    if (leafIndex : Int) ≤ highestCommitted then .ok (mmr, st)
    else do
      let (mmr1, st1) ←
        if (leafIndex : Int) > highestCommitted + 1 then do
          let missingLeaves ←
            (List.range' mmr.leafCount (leafIndex - mmr.leafCount)).mapM
              (fun i =>
                match getLeafRecordNewData st i with
                | some nd => Except.ok (i, nd)
                | none => Except.error "Missing leaf data for leaf index")
          missingLeaves.foldlM
            (fun (acc : Mmr C × Store) e =>
              processNewLeafEventForMMR fuel acc.1 acc.2 e.1 e.2)
            (mmr, st)
        else pure (mmr, st)
      commitLeafToMMR E nullCid cidToText pairToString mmr1 st1 leafIndex newData

/-- `processNewLeafEvent` (`syncHelpers.ts`): feed the event to the DB
handler, then to the MMR handler, then invoke every registered leaf
subscriber with `(leafIndex, hex(newData))`.  Subscribers are modeled by
their count; the returned list has one `(index, hexData)` entry per
subscriber callback invocation, in call order. -/
def processNewLeafEvent (fuel : Nat) (mmr : Mmr C) (st : Store) (event : LeafEvent C)
    (numSubscribers : Nat) :
    Except String (Mmr C × Store × List (Nat × String)) := do
  let st' ←
    processNewLeafEventForDB cidToText eventToString peaksToString walkBack fuel st event
  let (mmr', st'') ←
    processNewLeafEventForMMR E nullCid cidToText pairToString fuel mmr st'
      event.leafIndex event.newData
  pure (mmr', st'',
    List.replicate numSubscribers (event.leafIndex, uint8ArrayToHexString event.newData))

end SyncModel

/-! ## IPFS adapter: remote-pin circuit breaker

`UniversalIpfsAdapter` (`UniversalIpfsAdapter.ts`): the mutable adapter
fields relevant to `putBlock`, and `putBlock`'s control flow.  Network
outcomes are oracle inputs: `mainPostOk` is whether the `block/put` POST
returns ok, `pinOk` is whether the remote-pin POST (through its rate
limiter) succeeds.  The initial CID verification and the returned-CID
comparison only log; they do not affect control flow or state. -/

/-- The adapter state: the capability flags fixed by the constructor, the
remote-pin configuration presence (`remotePinConfig` and its rate limiter are
set together and only ever cleared together), the failure counter, and the
failure threshold. -/
structure IpfsAdapterState where
  shouldPut : Bool
  shouldPin : Bool
  hasRemotePinConfig : Bool
  remotePinFailures : Nat
  remotePinFailureThreshold : Nat
  deriving DecidableEq

/-- The `UniversalIpfsAdapter` constructor: `shouldPut`/`shouldPin` require
an API URL; the failure counter starts at 0 and the threshold defaults to 5
when the parameter is `undefined`. -/
def mkUniversalIpfsAdapter (wantsToPut wantsToPin hasApiUrl hasRemotePinConfig : Bool)
    (remotePinFailureThreshold : Option Nat) : IpfsAdapterState :=
  { shouldPut := wantsToPut && hasApiUrl
    shouldPin := wantsToPin && hasApiUrl
    hasRemotePinConfig := hasRemotePinConfig
    remotePinFailures := 0
    remotePinFailureThreshold := remotePinFailureThreshold.getD 5 }

/-- `putBlock`: skip everything when `shouldPut` is false; fail when the
`block/put` POST fails (before any remote-pin activity); otherwise, when a
remote-pin config is present, attempt the `/pins` POST — on failure increment
the failure counter and clear the config once the counter reaches the
threshold.  Returns the call result, the new adapter state, and whether the
remote-pin POST was attempted. -/
def putBlock (s : IpfsAdapterState) (mainPostOk pinOk : Bool) :
    Except String Unit × IpfsAdapterState × Bool :=
  if !s.shouldPut then (.ok (), s, false)
  else if !mainPostOk then (.error "IPFS block/put failed", s, false)
  else if s.hasRemotePinConfig then
    if pinOk then (.ok (), s, true)
    else
      let f := s.remotePinFailures + 1
      (.ok (),
       { s with remotePinFailures := f,
                hasRemotePinConfig := if s.remotePinFailureThreshold ≤ f then false else true },
       true)
  else (.ok (), s, false)

/-- A sequence of `putBlock` calls with the given `(mainPostOk, pinOk)`
outcomes; returns the final adapter state and how many of the calls attempted
the remote-pin POST. -/
def runPutBlocks (s : IpfsAdapterState) : List (Bool × Bool) → IpfsAdapterState × Nat
  | [] => (s, 0)
  | o :: rest =>
      let r := putBlock s o.1 o.2
      let tail := runPutBlocks r.2.1 rest
      (tail.1, (if r.2.2 then 1 else 0) + tail.2)

/-- Modelled from the spec: "A circuit breaker counts consecutive failures" —
the claim's reading of the counter, where an intervening success resets it to
zero.  `outcomes` lists the results of successive remote-pin attempts. -/
def claimConsecutivePinFailures (outcomes : List Bool) : Nat :=
  outcomes.foldl (fun n ok => if ok then 0 else n + 1) 0

/-- The free CID algebra: blocks are identified with their own structure.
This witnesses the abstract development: `freeE` is injective, which models
collision-freeness of `sha256` over dag-cbor blocks. -/
inductive FreeCid where
  | bytes (b : Bytes)
  | link (l r : FreeCid)
  | cidLink (c : FreeCid)
  | nullNode
  deriving DecidableEq

/-- The free block encoder. -/
def freeE : NodeF FreeCid → FreeCid
  | .bytes b => .bytes b
  | .link l r => .link l r
  | .cidLink c => .cidLink c
  | .nullNode => .nullNode

/-- `freeE` is injective (distinct blocks get distinct free CIDs). -/
theorem freeE_injective : Function.Injective freeE := by
  intro a b h
  cases a <;> cases b <;> simp_all [freeE]

/-! ## Arithmetic lemmas for the fuelled bit-counting functions -/

theorem pcF_zero (f : Nat) : pcF f 0 = 0 := by cases f <;> rfl

theorem pcF_congr : ∀ (m f g : Nat), m ≤ f → m ≤ g → pcF f m = pcF g m := by
  intro m
  induction m using Nat.strong_induction_on with
  | _ m IH =>
    intro f g hf hg
    match m, f, g with
    | 0, f, g => rw [pcF_zero, pcF_zero]
    | m + 1, f + 1, g + 1 =>
      show pcF f ((m + 1) / 2) + (m + 1) % 2 = pcF g ((m + 1) / 2) + (m + 1) % 2
      rw [IH ((m + 1) / 2) (by omega) f g (by omega) (by omega)]

theorem popcount_zero : popcount 0 = 0 := rfl

theorem popcount_eq (m : Nat) : popcount (m + 1) = popcount ((m + 1) / 2) + (m + 1) % 2 := by
  show pcF m ((m + 1) / 2) + (m + 1) % 2 = _
  rw [pcF_congr ((m + 1) / 2) m ((m + 1) / 2) (by omega) (le_refl _)]
  rfl

theorem toF_zero (f : Nat) : toF f 0 = 0 := by cases f <;> rfl

theorem toF_congr : ∀ (m f g : Nat), m ≤ f → m ≤ g → toF f m = toF g m := by
  intro m
  induction m using Nat.strong_induction_on with
  | _ m IH =>
    intro f g hf hg
    match m, f, g with
    | 0, f, g => rw [toF_zero, toF_zero]
    | m + 1, f + 1, g + 1 =>
      show (if (m + 1) % 2 = 1 then toF f ((m + 1) / 2) + 1 else 0) =
        (if (m + 1) % 2 = 1 then toF g ((m + 1) / 2) + 1 else 0)
      rw [IH ((m + 1) / 2) (by omega) f g (by omega) (by omega)]

theorem trailingOnes_zero : trailingOnes 0 = 0 := rfl

theorem trailingOnes_eq (m : Nat) :
    trailingOnes (m + 1) =
      if (m + 1) % 2 = 1 then trailingOnes ((m + 1) / 2) + 1 else 0 := by
  show (if (m + 1) % 2 = 1 then toF m ((m + 1) / 2) + 1 else 0) = _
  rw [toF_congr ((m + 1) / 2) m ((m + 1) / 2) (by omega) (le_refl _)]
  rfl

theorem trailingOnes_of_even (m : Nat) (h : m % 2 = 0) : trailingOnes m = 0 := by
  match m with
  | 0 => rfl
  | m + 1 => rw [trailingOnes_eq, if_neg (by omega)]

theorem trailingOnes_of_odd (m : Nat) (h : m % 2 = 1) :
    trailingOnes m = trailingOnes (m / 2) + 1 := by
  match m with
  | 0 => omega
  | m + 1 => rw [trailingOnes_eq, if_pos h]

theorem trailingOnes_le_self : ∀ n, trailingOnes n ≤ n := by
  intro n
  induction n using Nat.strong_induction_on with
  | _ n IH =>
    match n with
    | 0 => exact le_refl 0
    | m + 1 =>
      by_cases h : (m + 1) % 2 = 1
      · rw [trailingOnes_of_odd _ h]
        have := IH ((m + 1) / 2) (by omega)
        omega
      · rw [trailingOnes_of_even _ (by omega)]; omega

/-- At least `k` trailing one-bits force the low `k` bits to be all ones. -/
theorem mod_two_pow_of_trailingOnes_ge : ∀ (k n : Nat), k ≤ trailingOnes n →
    n % 2 ^ k = 2 ^ k - 1 := by
  intro k
  induction k with
  | zero => intro n _; simp [Nat.mod_one]
  | succ k IH =>
    intro n hk
    have hodd : n % 2 = 1 := by
      by_contra hne
      have h0 : n % 2 = 0 := by omega
      rw [trailingOnes_of_even n h0] at hk
      omega
    have ht := trailingOnes_of_odd n hodd
    have hrec := IH (n / 2) (by omega)
    have hsplit : n % 2 ^ (k + 1) = n % 2 + 2 * (n / 2 % 2 ^ k) := by
      rw [show (2 : Nat) ^ (k + 1) = 2 * 2 ^ k by ring]
      exact Nat.mod_mul
    have hpow : (1 : Nat) ≤ 2 ^ k := Nat.one_le_two_pow
    have hpow2 : (2 : Nat) ^ (k + 1) = 2 * 2 ^ k := by ring
    rw [hsplit, hrec, hodd]
    omega

/-- The key bit-counting identity behind the MMR peak-count invariant:
the trailing-ones count never exceeds the 1-bit count, and one append turns
`t` trailing ones into a single new 1-bit. -/
theorem popcount_succ_key : ∀ n, trailingOnes n ≤ popcount n ∧
    popcount (n + 1) + trailingOnes n = popcount n + 1 := by
  intro n
  induction n using Nat.strong_induction_on with
  | _ n IH =>
    match n with
    | 0 => exact ⟨le_refl 0, rfl⟩
    | m + 1 =>
      by_cases h : (m + 1) % 2 = 1
      · have hq : (m + 2) / 2 = (m + 1) / 2 + 1 := by omega
        have hrec := IH ((m + 1) / 2) (by omega)
        constructor
        · rw [trailingOnes_of_odd _ h, popcount_eq, h]
          omega
        · rw [trailingOnes_of_odd _ h, popcount_eq m, h]
          rw [popcount_eq (m + 1), hq]
          have h2 : (m + 2) % 2 = 0 := by omega
          omega
      · have h0 : (m + 1) % 2 = 0 := by omega
        have h2 : (m + 2) % 2 = 1 := by omega
        have hq : (m + 2) / 2 = (m + 1) / 2 := by omega
        constructor
        · rw [trailingOnes_of_even _ h0]; omega
        · rw [trailingOnes_of_even _ h0, popcount_eq (m + 1), hq, popcount_eq m, h0, h2]

theorem popcount_le_of_lt_two_pow : ∀ (k n : Nat), n < 2 ^ k → popcount n ≤ k := by
  intro k
  induction k with
  | zero =>
    intro n h
    interval_cases n
    exact le_refl 0
  | succ k IH =>
    intro n h
    match n with
    | 0 => exact Nat.zero_le _
    | m + 1 =>
      rw [popcount_eq]
      have hd : (m + 1) / 2 < 2 ^ k := by
        have : 2 ^ (k + 1) = 2 * 2 ^ k := by ring
        omega
      have := IH _ hd
      omega

theorem bitPosF_nil (f b : Nat) : bitPosF f 0 b = [] := by cases f <;> rfl

theorem bitPosF_length : ∀ (f m base : Nat), (bitPosF f m base).length = pcF f m := by
  intro f
  induction f with
  | zero => intro m base; cases m <;> rfl
  | succ f IH =>
    intro m base
    match m with
    | 0 => rfl
    | m + 1 =>
      show (if (m + 1) % 2 = 1 then base :: bitPosF f ((m + 1) / 2) (base + 1)
        else bitPosF f ((m + 1) / 2) (base + 1)).length = pcF f ((m + 1) / 2) + (m + 1) % 2
      by_cases h : (m + 1) % 2 = 1
      · rw [if_pos h, h]; simp [IH]
      · rw [if_neg h]
        have h0 : (m + 1) % 2 = 0 := by omega
        rw [h0, IH]
        omega

theorem bitPosF_sum : ∀ (f m base : Nat), m ≤ f →
    ((bitPosF f m base).map (2 ^ ·)).sum = m * 2 ^ base := by
  intro f
  induction f with
  | zero => intro m base h; interval_cases m; simp [bitPosF_nil]
  | succ f IH =>
    intro m base h
    match m with
    | 0 => simp [bitPosF_nil]
    | m + 1 =>
      show ((if (m + 1) % 2 = 1 then base :: bitPosF f ((m + 1) / 2) (base + 1)
        else bitPosF f ((m + 1) / 2) (base + 1)).map (2 ^ ·)).sum = (m + 1) * 2 ^ base
      have hrec := IH ((m + 1) / 2) (base + 1) (by omega)
      have hp : (2 : Nat) ^ (base + 1) = 2 ^ base * 2 := by ring
      by_cases h2 : (m + 1) % 2 = 1
      · rw [if_pos h2]
        simp only [List.map_cons, List.sum_cons, hrec]
        have hm : m + 1 = 2 * ((m + 1) / 2) + 1 := by omega
        calc 2 ^ base + (m + 1) / 2 * 2 ^ (base + 1)
            = (2 * ((m + 1) / 2) + 1) * 2 ^ base := by rw [hp]; ring
          _ = (m + 1) * 2 ^ base := by rw [← hm]
      · rw [if_neg h2]
        rw [hrec]
        have hm : m + 1 = 2 * ((m + 1) / 2) := by omega
        calc (m + 1) / 2 * 2 ^ (base + 1) = 2 * ((m + 1) / 2) * 2 ^ base := by rw [hp]; ring
          _ = (m + 1) * 2 ^ base := by rw [← hm]

theorem bitPosF_lb : ∀ (f m base x : Nat), x ∈ bitPosF f m base → base ≤ x := by
  intro f
  induction f with
  | zero => intro m base x h; cases m <;> simp [bitPosF_nil, bitPosF] at h
  | succ f IH =>
    intro m base x h
    match m with
    | 0 => simp [bitPosF_nil] at h
    | m + 1 =>
      rw [show bitPosF (f + 1) (m + 1) base =
        (if (m + 1) % 2 = 1 then base :: bitPosF f ((m + 1) / 2) (base + 1)
          else bitPosF f ((m + 1) / 2) (base + 1)) from rfl] at h
      by_cases h2 : (m + 1) % 2 = 1
      · rw [if_pos h2] at h
        rcases List.mem_cons.mp h with h | h
        · omega
        · have := IH _ _ _ h; omega
      · rw [if_neg h2] at h
        have := IH _ _ _ h; omega

theorem bitPosF_pairwise : ∀ (f m base : Nat), List.Pairwise (· < ·) (bitPosF f m base) := by
  intro f
  induction f with
  | zero => intro m base; cases m <;> simp [bitPosF_nil, bitPosF]
  | succ f IH =>
    intro m base
    match m with
    | 0 => simp [bitPosF_nil]
    | m + 1 =>
      show List.Pairwise (· < ·)
        (if (m + 1) % 2 = 1 then base :: bitPosF f ((m + 1) / 2) (base + 1)
          else bitPosF f ((m + 1) / 2) (base + 1))
      by_cases h2 : (m + 1) % 2 = 1
      · rw [if_pos h2]
        exact List.Pairwise.cons (fun x hx => by have := bitPosF_lb f _ _ x hx; omega) (IH _ _)
      · rw [if_neg h2]; exact IH _ _

theorem bitPositionsDesc_length (n : Nat) : (bitPositionsDesc n).length = popcount n := by
  simp [bitPositionsDesc, bitPositionsAsc, bitPosF_length, popcount]

theorem bitPositionsDesc_sum (n : Nat) : ((bitPositionsDesc n).map (2 ^ ·)).sum = n := by
  unfold bitPositionsDesc bitPositionsAsc
  rw [List.map_reverse, List.sum_reverse, bitPosF_sum n n 0 (le_refl n)]
  simp

theorem bitPositionsDesc_sorted (n : Nat) : List.Pairwise (· > ·) (bitPositionsDesc n) := by
  unfold bitPositionsDesc bitPositionsAsc
  rw [List.pairwise_reverse]
  exact bitPosF_pairwise n n 0

/-! ## Engine lemmas: the merge cascade and the reachable-state invariant -/

section EngineLemmas

variable {C : Type} [DecidableEq C] (E : NodeF C → C) (nullCid : C)

/-- Characterization of a successful merge cascade: with fuel above the
trailing-ones count of `leafCount >> height` and at least that many peaks, the
cascade pops exactly that many peaks from the right and emits one left input
per merge. -/
theorem mergeCascade_spec :
    ∀ (fuel n h : Nat) (peaks : List C) (carry : C),
      trailingOnes (n >>> h) < fuel → trailingOnes (n >>> h) ≤ peaks.length →
      ∃ carry' trail lefts,
        mergeCascade E fuel n h peaks carry =
          .ok (peaks.take (peaks.length - trailingOnes (n >>> h)), carry', trail, lefts) ∧
        lefts.length = trailingOnes (n >>> h) := by
  intro fuel
  induction fuel with
  | zero => intro n h peaks carry hf _; omega
  | succ f IH =>
    intro n h peaks carry hf hlen
    by_cases hbit : (n >>> h) &&& 1 = 1
    · have hmod : (n >>> h) % 2 = 1 := by rwa [Nat.and_one_is_mod] at hbit
      have ht := trailingOnes_of_odd _ hmod
      have hs : n >>> (h + 1) = (n >>> h) / 2 := Nat.shiftRight_succ n h
      have hne : peaks ≠ [] := by
        intro he
        rw [he] at hlen
        simp at hlen
        omega
      have hlast : peaks.getLast? = some (peaks.getLast hne) :=
        List.getLast?_eq_getLast peaks hne
      obtain ⟨c', tr, lf, heq, hlf⟩ :=
        IH n (h + 1) peaks.dropLast (E (.link (peaks.getLast hne) carry))
          (by rw [hs]; omega)
          (by rw [hs, List.length_dropLast]; omega)
      refine ⟨c', (E (.link (peaks.getLast hne) carry), .link (peaks.getLast hne) carry) :: tr,
        peaks.getLast hne :: lf, ?_, ?_⟩
      · unfold mergeCascade
        rw [if_pos hbit, hlast]
        dsimp only
        have harg : peaks.dropLast.take (peaks.dropLast.length - trailingOnes (n >>> (h + 1))) =
            peaks.take (peaks.length - trailingOnes (n >>> h)) := by
          rw [List.dropLast_eq_take, List.take_take, List.length_take]
          congr 1
          rw [hs]
          omega
        rw [heq, harg]
        rfl
      · simp only [List.length_cons, hlf, hs]
        omega
    · have hmod : (n >>> h) % 2 = 0 := by
        have := Nat.and_one_is_mod (n >>> h)
        omega
      have ht := trailingOnes_of_even _ hmod
      refine ⟨carry, [], [], ?_, by simp [ht]⟩
      unfold mergeCascade
      rw [if_neg hbit, ht, Nat.sub_zero, List.take_length]

/-- Below bit 32, the JavaScript bit test (ToInt32 + shift count mod 32)
agrees with the unbounded-shift bit test. -/
theorem jsBit_agree (n h : Nat) (hh : h ≤ 31) :
    ((n % 2 ^ 32) >>> (h % 32)) &&& 1 = (n >>> h) &&& 1 := by
  have h32 : h % 32 = h := Nat.mod_eq_of_lt (by omega)
  rw [h32, Nat.and_one_is_mod, Nat.and_one_is_mod, Nat.shiftRight_eq_div_pow,
    Nat.shiftRight_eq_div_pow]
  have hsplit : (2 : Nat) ^ 32 = 2 ^ h * 2 ^ (32 - h) := by
    rw [← pow_add]
    congr 1
    omega
  rw [hsplit, Nat.mod_mul_right_div_self]
  exact Nat.mod_mod_of_dvd _ (dvd_pow_self 2 (by omega))

/-- As long as the merge loop stays inside the 32-bit window — fewer than 32
trailing one-bits from the current height on — the JavaScript-shift cascade
and the unbounded-shift cascade are the same function. -/
theorem mergeCascadeJS_agree : ∀ (fuel n h : Nat) (peaks : List C) (carry : C),
    trailingOnes (n >>> h) + h ≤ 31 →
    mergeCascadeJS E fuel n h peaks carry = mergeCascade E fuel n h peaks carry := by
  intro fuel
  induction fuel with
  | zero => intros; rfl
  | succ f IH =>
    intro n h peaks carry hb
    unfold mergeCascadeJS mergeCascade
    rw [jsBit_agree n h (by omega)]
    by_cases hbit : (n >>> h) &&& 1 = 1
    · rw [if_pos hbit, if_pos hbit]
      cases hl : peaks.getLast? with
      | none => rfl
      | some left =>
        have hmod : (n >>> h) % 2 = 1 := by rwa [Nat.and_one_is_mod] at hbit
        have ht := trailingOnes_of_odd _ hmod
        have hs : n >>> (h + 1) = (n >>> h) / 2 := Nat.shiftRight_succ n h
        dsimp only
        rw [IH n (h + 1) peaks.dropLast (E (.link left carry)) (by rw [hs]; omega)]
    · rw [if_neg hbit, if_neg hbit]

/-- With fewer than 32 trailing one-bits in the leaf count, the
JavaScript-shift append and the unbounded-shift append coincide. -/
theorem addLeafFullJS_eq (s : Mmr C) (leafIndex : Nat) (newData : Bytes)
    (h31 : trailingOnes s.leafCount ≤ 31) :
    addLeafFullJS E nullCid s leafIndex newData =
      addLeafFull E nullCid s leafIndex newData := by
  unfold addLeafFullJS addLeafFull
  by_cases hg : s.leafCount ≠ leafIndex
  · rw [if_pos hg, if_pos hg]
  · rw [if_neg hg, if_neg hg,
      mergeCascadeJS_agree E (s.leafCount + 1) s.leafCount 0 s.peaks (E (.bytes newData))
        (by rw [Nat.shiftRight_zero]; omega)]

/-- An in-order append on a state with enough peaks for its merges always
succeeds (the fuel `leafCount + 1` and the pops never fail). -/
theorem addLeafFull_ok (s : Mmr C) (p : Bytes)
    (hlen : trailingOnes s.leafCount ≤ s.peaks.length) :
    ∃ out, addLeafFull E nullCid s s.leafCount p = .ok out := by
  obtain ⟨c', tr, lf, heq, _⟩ :=
    mergeCascade_spec E (s.leafCount + 1) s.leafCount 0 s.peaks (E (.bytes p))
      (by rw [Nat.shiftRight_zero]; exact Nat.lt_succ_of_le (trailingOnes_le_self _))
      (by rwa [Nat.shiftRight_zero])
  unfold addLeafFull
  rw [if_neg (by simp), heq]
  exact ⟨_, rfl⟩

/-- Every state reachable by in-order appends has exactly one peak per 1-bit
of its leaf count. -/
theorem reachable_peaks_length :
    ∀ {s : Mmr C}, Reachable E nullCid s → s.peaks.length = popcount s.leafCount := by
  intro s h
  induction h with
  | empty => rfl
  | @step s s' p tr lefts hr hok IH =>
    have hkey := popcount_succ_key s.leafCount
    have hlen : trailingOnes s.leafCount ≤ s.peaks.length := by omega
    obtain ⟨c', tr', lf', heq, _⟩ :=
      mergeCascade_spec E (s.leafCount + 1) s.leafCount 0 s.peaks (E (.bytes p))
        (by rw [Nat.shiftRight_zero]; exact Nat.lt_succ_of_le (trailingOnes_le_self _))
        (by rwa [Nat.shiftRight_zero])
    unfold addLeafFull at hok
    rw [if_neg (by simp), heq] at hok
    simp only [Except.map, Except.ok.injEq, Prod.mk.injEq] at hok
    have hpeaks : s'.peaks =
        s.peaks.take (s.peaks.length - trailingOnes (s.leafCount >>> 0)) ++ [c'] := by
      rw [← hok.1]
    have hcount : s'.leafCount = s.leafCount + 1 := by rw [← hok.1]
    rw [hpeaks, hcount]
    rw [Nat.shiftRight_zero] at *
    simp only [List.length_append, List.length_take, List.length_cons, List.length_nil]
    omega

end EngineLemmas

/-! ## Payload trees: the denotation used for DAG-resolver faithfulness

Every peak the engine builds is the root of a binary tree of leaf blocks and
`{L, R}` link blocks; the root is the left-to-right bag of the peaks.  These
trees are the induction skeleton relating the trails emitted by
`addLeafWithTrail` to what `resolveMerkleTreeOrThrow` reads back. -/

/-- Splitting a list at its last element, phrased via `getLast?`. -/
theorem dropLast_append_of_getLast? {α : Type} {l : List α} {a : α}
    (h : l.getLast? = some a) : l.dropLast ++ [a] = l := by
  have hne : l ≠ [] := by intro he; rw [he] at h; exact Option.noConfusion h
  have hg := List.getLast?_eq_getLast l hne
  rw [hg] at h
  have ha : l.getLast hne = a := by injection h
  rw [← ha]
  exact List.dropLast_append_getLast hne

/-- Binary payload trees. -/
inductive Tree where
  | leaf (p : Bytes)
  | node (l r : Tree)

section TreeLemmas

variable {C : Type} [DecidableEq C] (E : NodeF C → C) (nullCid : C)

/-- The CID of a tree's root block under the encoder `E`. -/
def cidT : Tree → C
  | .leaf p => E (.bytes p)
  | .node l r => E (.link (cidT l) (cidT r))

/-- The root block of a tree. -/
def nodeOfT : Tree → NodeF C
  | .leaf p => .bytes p
  | .node l r => .link (cidT E l) (cidT E r)

/-- The leaf payloads of a tree, left to right. -/
def leavesT : Tree → List Bytes
  | .leaf p => [p]
  | .node l r => leavesT l ++ leavesT r

/-- All CID/block pairs occurring in a tree. -/
def blocksT : Tree → List (C × NodeF C)
  | .leaf p => [(E (.bytes p), .bytes p)]
  | .node l r => (cidT E (.node l r), nodeOfT E (.node l r)) :: (blocksT l ++ blocksT r)

/-- The height of a tree. -/
def heightT : Tree → Nat
  | .leaf _ => 0
  | .node l r => max (heightT l) (heightT r) + 1

/-- The merge cascade acting on trees (the denotation of `mergeCascade`). -/
def cascadeT : Nat → Nat → Nat → List Tree → Tree →
    Except String (List Tree × Tree × List (C × NodeF C) × List C)
  | 0, _, _, _, _ => .error "cascade fuel exhausted"
  | fuel + 1, leafCount, height, ts, ct =>
    if (leafCount >>> height) &&& 1 = 1 then
      match ts.getLast? with
      | none => .error "MMR structure error: no peak to merge"
      | some left =>
          (cascadeT fuel leafCount (height + 1) ts.dropLast (.node left ct)).map
            (fun r =>
              (r.1, r.2.1,
               (cidT E (.node left ct), nodeOfT E (.node left ct)) :: r.2.2.1,
               cidT E left :: r.2.2.2))
    else .ok (ts, ct, [], [])

/-- `mergeCascade` on the CIDs of trees is the image of `cascadeT`. -/
theorem mergeCascade_sim : ∀ (fuel n h : Nat) (ts : List Tree) (ct : Tree),
    mergeCascade E fuel n h (ts.map (cidT E)) (cidT E ct) =
      (cascadeT E fuel n h ts ct).map
        (fun r => (r.1.map (cidT E), cidT E r.2.1, r.2.2)) := by
  intro fuel
  induction fuel with
  | zero => intro n h ts ct; rfl
  | succ f IH =>
    intro n h ts ct
    by_cases hbit : (n >>> h) &&& 1 = 1
    · unfold mergeCascade cascadeT
      rw [if_pos hbit, if_pos hbit, List.getLast?_map]
      cases hl : ts.getLast? with
      | none => rfl
      | some left =>
        dsimp only [Option.map]
        have hdrop : (ts.map (cidT E)).dropLast = ts.dropLast.map (cidT E) :=
          (List.map_dropLast (cidT E) ts).symm
        rw [hdrop]
        have hIH := IH n (h + 1) ts.dropLast (.node left ct)
        rw [show E (.link (cidT E left) (cidT E ct)) = cidT E (.node left ct) from rfl, hIH]
        cases cascadeT E f n (h + 1) ts.dropLast (.node left ct) with
        | error e => rfl
        | ok r => rfl
    · unfold mergeCascade cascadeT
      rw [if_neg hbit, if_neg hbit]
      rfl

/-- A successful tree cascade preserves the leaf sequence. -/
theorem cascadeT_leaves : ∀ (fuel n h : Nat) (ts : List Tree) (ct : Tree)
    {ts' : List Tree} {ct' : Tree} {tr : List (C × NodeF C)} {lf : List C},
    cascadeT E fuel n h ts ct = .ok (ts', ct', tr, lf) →
    ts'.flatMap leavesT ++ leavesT ct' = ts.flatMap leavesT ++ leavesT ct := by
  intro fuel
  induction fuel with
  | zero => intro n h ts ct ts' ct' tr lf hh; exact absurd hh (fun hh => Except.noConfusion hh)
  | succ f IH =>
    intro n h ts ct ts' ct' tr lf hh
    by_cases hbit : (n >>> h) &&& 1 = 1
    · unfold cascadeT at hh
      rw [if_pos hbit] at hh
      cases hl : ts.getLast? with
      | none => rw [hl] at hh; exact absurd hh (fun hh => Except.noConfusion hh)
      | some left =>
        rw [hl] at hh
        dsimp only at hh
        have hts : ts.dropLast ++ [left] = ts := dropLast_append_of_getLast? hl
        cases hrec : cascadeT E f n (h + 1) ts.dropLast (.node left ct) with
        | error e => rw [hrec] at hh; exact absurd hh (fun hh => Except.noConfusion hh)
        | ok r =>
          rw [hrec] at hh
          simp only [Except.map, Except.ok.injEq, Prod.mk.injEq] at hh
          obtain ⟨h1, h2, _, _⟩ := hh
          have hIH := IH n (h + 1) ts.dropLast (.node left ct) hrec
          rw [h1, h2] at hIH
          rw [hIH, ← hts]
          simp [leavesT, List.flatMap_append]
    · unfold cascadeT at hh
      rw [if_neg hbit] at hh
      simp only [Except.ok.injEq, Prod.mk.injEq] at hh
      obtain ⟨h1, h2, _, _⟩ := hh
      rw [h1, h2]

/-- Every block of a successful tree cascade's output comes from the input
trees, the input carry, or the emitted merge trail. -/
theorem cascadeT_blocks : ∀ (fuel n h : Nat) (ts : List Tree) (ct : Tree)
    {ts' : List Tree} {ct' : Tree} {tr : List (C × NodeF C)} {lf : List C},
    cascadeT E fuel n h ts ct = .ok (ts', ct', tr, lf) →
    ∀ b, (b ∈ ts'.flatMap (blocksT E) ∨ b ∈ blocksT E ct') →
      b ∈ ts.flatMap (blocksT E) ∨ b ∈ blocksT E ct ∨ b ∈ tr := by
  intro fuel
  induction fuel with
  | zero => intro n h ts ct ts' ct' tr lf hh; exact absurd hh (fun hh => Except.noConfusion hh)
  | succ f IH =>
    intro n h ts ct ts' ct' tr lf hh b hb
    by_cases hbit : (n >>> h) &&& 1 = 1
    · unfold cascadeT at hh
      rw [if_pos hbit] at hh
      cases hl : ts.getLast? with
      | none => rw [hl] at hh; exact absurd hh (fun hh => Except.noConfusion hh)
      | some left =>
        rw [hl] at hh
        dsimp only at hh
        have hts : ts.dropLast ++ [left] = ts := dropLast_append_of_getLast? hl
        cases hrec : cascadeT E f n (h + 1) ts.dropLast (.node left ct) with
        | error e => rw [hrec] at hh; exact absurd hh (fun hh => Except.noConfusion hh)
        | ok r =>
          rw [hrec] at hh
          simp only [Except.map, Except.ok.injEq, Prod.mk.injEq] at hh
          obtain ⟨h1, h2, h3, _⟩ := hh
          rw [← h1, ← h2] at hb
          have hIH := IH n (h + 1) ts.dropLast (.node left ct) hrec b hb
          rw [← h3, ← hts]
          rcases hIH with hc | hc | hc
          · exact Or.inl (by simp [List.flatMap_append]; left; simpa using hc)
          · rw [show blocksT E (.node left ct) =
              (cidT E (.node left ct), nodeOfT E (.node left ct)) ::
                (blocksT E left ++ blocksT E ct) from rfl] at hc
            rcases List.mem_cons.mp hc with hc | hc
            · exact Or.inr (Or.inr (by simp [hc]))
            · rcases List.mem_append.mp hc with hc | hc
              · exact Or.inl (by simp [List.flatMap_append, blocksT]; tauto)
              · exact Or.inr (Or.inl hc)
          · exact Or.inr (Or.inr (by simp [hc]))
    · unfold cascadeT at hh
      rw [if_neg hbit] at hh
      simp only [Except.ok.injEq, Prod.mk.injEq] at hh
      obtain ⟨h1, h2, _, _⟩ := hh
      rw [← h1, ← h2] at hb
      tauto

/-- The left-to-right bag of a list of trees onto a current tree. -/
def bagT : Tree → List Tree → Tree
  | cur, [] => cur
  | cur, t :: rest => bagT (.node cur t) rest

/-- The bagging-link blocks created while bagging. -/
def bagSpineT : Tree → List Tree → List (C × NodeF C)
  | _, [] => []
  | cur, t :: rest =>
      (cidT E (.node cur t), nodeOfT E (.node cur t)) :: bagSpineT (.node cur t) rest

/-- `bagPeaksWithTrail` on tree CIDs computes the bag tree's CID and appends
exactly the spine blocks. -/
theorem bagPeaksWithTrail_sim : ∀ (rest : List Tree) (cur : Tree) (acc : List (C × NodeF C)),
    bagPeaksWithTrail E (cidT E cur) (rest.map (cidT E)) acc =
      (cidT E (bagT cur rest), acc ++ bagSpineT E cur rest) := by
  intro rest
  induction rest with
  | nil => intro cur acc; simp [bagPeaksWithTrail, bagT, bagSpineT]
  | cons t rest IH =>
    intro cur acc
    show bagPeaksWithTrail E (E (.link (cidT E cur) (cidT E t))) (rest.map (cidT E)) _ = _
    rw [show E (.link (cidT E cur) (cidT E t)) = cidT E (.node cur t) from rfl]
    rw [IH (.node cur t)]
    simp [bagT, bagSpineT, nodeOfT]

/-- Leaves of the bag tree: the current tree's leaves then each bagged
tree's leaves in order. -/
theorem bagT_leaves : ∀ (rest : List Tree) (cur : Tree),
    leavesT (bagT cur rest) = leavesT cur ++ rest.flatMap leavesT := by
  intro rest
  induction rest with
  | nil => intro cur; simp [bagT]
  | cons t rest IH =>
    intro cur
    rw [show bagT cur (t :: rest) = bagT (.node cur t) rest from rfl, IH]
    simp [leavesT]

/-- Every block of the bag tree is a block of a bagged tree or a spine
block. -/
theorem bagT_blocks : ∀ (rest : List Tree) (cur : Tree) (b : C × NodeF C),
    b ∈ blocksT E (bagT cur rest) →
    b ∈ blocksT E cur ∨ b ∈ rest.flatMap (blocksT E) ∨ b ∈ bagSpineT E cur rest := by
  intro rest
  induction rest with
  | nil => intro cur b hb; simp [bagT] at hb; tauto
  | cons t rest IH =>
    intro cur b hb
    rw [show bagT cur (t :: rest) = bagT (.node cur t) rest from rfl] at hb
    rcases IH (.node cur t) b hb with hc | hc | hc
    · rw [show blocksT E (.node cur t) =
        (cidT E (.node cur t), nodeOfT E (.node cur t)) ::
          (blocksT E cur ++ blocksT E t) from rfl] at hc
      rcases List.mem_cons.mp hc with hc | hc
      · exact Or.inr (Or.inr (by simp [bagSpineT, hc]))
      · rcases List.mem_append.mp hc with hc | hc
        · exact Or.inl hc
        · exact Or.inr (Or.inl (by
            rw [List.flatMap_cons]
            exact List.mem_append_left _ hc))
    · exact Or.inr (Or.inl (by
        rw [List.flatMap_cons]
        exact List.mem_append_right _ hc))
    · exact Or.inr (Or.inr (by
        rw [show bagSpineT E cur (t :: rest) =
          (cidT E (.node cur t), nodeOfT E (.node cur t)) ::
            bagSpineT E (.node cur t) rest from rfl]
        exact List.mem_cons_of_mem _ hc))

/-- A tree has at least one leaf. -/
theorem leavesT_ne_nil : ∀ t : Tree, leavesT t ≠ [] := by
  intro t
  induction t with
  | leaf p => simp [leavesT]
  | node l r IHl IHr => simp [leavesT]; intro h; exact absurd h IHl

/-- A tree is strictly shallower than its number of leaves. -/
theorem heightT_lt_leaves : ∀ t : Tree, heightT t < (leavesT t).length := by
  intro t
  induction t with
  | leaf p => simp [heightT, leavesT]
  | node l r IHl IHr =>
    have hl := List.length_pos.mpr (leavesT_ne_nil l)
    have hr := List.length_pos.mpr (leavesT_ne_nil r)
    simp only [heightT, leavesT, List.length_append]
    omega

/-- Resolver correctness on one tree: if the block source holds every block
of the tree, the resolver returns exactly the tree's leaf sequence, for any
fuel above the tree's height. -/
theorem resolve_tree (store : C → Option (NodeF C)) :
    ∀ (t : Tree) (fuel : Nat), (∀ b ∈ blocksT E t, store b.1 = some b.2) →
      heightT t < fuel →
      resolveMerkleTreeOrThrow store fuel (cidT E t) = .ok (leavesT t) := by
  intro t
  induction t with
  | leaf p =>
    intro fuel hstore hh
    cases fuel with
    | zero => omega
    | succ f =>
      have h0 : store (E (.bytes p)) = some (.bytes p) :=
        hstore (E (.bytes p), .bytes p) (by simp [blocksT])
      unfold resolveMerkleTreeOrThrow
      rw [show cidT E (.leaf p) = E (.bytes p) from rfl, h0]
      rfl
  | node l r IHl IHr =>
    intro fuel hstore hh
    cases fuel with
    | zero => omega
    | succ f =>
      have h0 : store (cidT E (.node l r)) = some (.link (cidT E l) (cidT E r)) :=
        hstore (cidT E (.node l r), .link (cidT E l) (cidT E r))
          (by rw [show blocksT E (.node l r) =
                (cidT E (.node l r), nodeOfT E (.node l r)) ::
                  (blocksT E l ++ blocksT E r) from rfl]
              exact List.mem_cons_self _ _)
      unfold resolveMerkleTreeOrThrow
      rw [h0]
      dsimp only
      have hhl : heightT l < f := by simp [heightT] at hh; omega
      have hhr : heightT r < f := by simp [heightT] at hh; omega
      have hsl : ∀ b ∈ blocksT E l, store b.1 = some b.2 := fun b hb =>
        hstore b (by simp [blocksT]; tauto)
      have hsr : ∀ b ∈ blocksT E r, store b.1 = some b.2 := fun b hb =>
        hstore b (by simp [blocksT]; tauto)
      rw [IHl f hsl hhl]
      show (Except.ok (leavesT l) >>= _) = _
      show (resolveMerkleTreeOrThrow store f (cidT E r) >>= _) = _
      rw [IHr f hsr hhr]
      rfl

/-- One successful in-order append, at the tree level: the new peak list is
the image of trees whose leaves extend the old ones by the new payload; every
block of the new trees is an old block or in the emitted trail; and the
bagging spine of the new peak list is in the emitted trail. -/
theorem addLeafFull_tree (s : Mmr C) (ts : List Tree) (p : Bytes)
    (s' : Mmr C) (tr : List (C × NodeF C)) (lf : List C)
    (hpeaks : s.peaks = ts.map (cidT E))
    (hok : addLeafFull E nullCid s s.leafCount p = .ok (s', tr, lf)) :
    ∃ t₀ rest, s'.peaks = ((t₀ :: rest).map (cidT E)) ∧
      (t₀ :: rest).flatMap leavesT = ts.flatMap leavesT ++ [p] ∧
      (∀ b ∈ (t₀ :: rest).flatMap (blocksT E), b ∈ ts.flatMap (blocksT E) ∨ b ∈ tr) ∧
      (∀ b ∈ bagSpineT E t₀ rest, b ∈ tr) ∧
      s'.leafCount = s.leafCount + 1 := by
  unfold addLeafFull at hok
  rw [if_neg (by simp), hpeaks,
    show E (.bytes p) = cidT E (.leaf p) from rfl,
    mergeCascade_sim E (s.leafCount + 1) s.leafCount 0 ts (.leaf p)] at hok
  cases hc : cascadeT E (s.leafCount + 1) s.leafCount 0 ts (.leaf p) with
  | error e => rw [hc] at hok; exact absurd hok (fun hh => Except.noConfusion hh)
  | ok r =>
    rw [hc] at hok
    obtain ⟨ts', ct', trm, lfm⟩ := r
    have hleaves := cascadeT_leaves E (s.leafCount + 1) s.leafCount 0 ts (.leaf p) hc
    have hblocks := cascadeT_blocks E (s.leafCount + 1) s.leafCount 0 ts (.leaf p) hc
    simp only [Except.map, Except.ok.injEq, Prod.mk.injEq] at hok
    obtain ⟨hs', htr, hlf⟩ := hok
    -- present ts' ++ [ct'] in cons form
    obtain ⟨t₀, rest, hcons⟩ : ∃ t₀ rest, ts' ++ [ct'] = t₀ :: rest := by
      cases ts' with
      | nil => exact ⟨ct', [], rfl⟩
      | cons a as => exact ⟨a, as ++ [ct'], rfl⟩
    have hmapcons : ts'.map (cidT E) ++ [cidT E ct'] = (t₀ :: rest).map (cidT E) := by
      rw [← hcons]; simp
    have hbag := bagPeaksWithTrail_sim E rest t₀ []
    have hroot : rootCIDWithTrail E nullCid (ts'.map (cidT E) ++ [cidT E ct']) =
        (cidT E (bagT t₀ rest), bagSpineT E t₀ rest) := by
      rw [hmapcons]
      show bagPeaksWithTrail E (cidT E t₀) (rest.map (cidT E)) [] = _
      rw [hbag]
      simp
    rw [hroot] at htr
    refine ⟨t₀, rest, ?_, ?_, ?_, ?_, ?_⟩
    · rw [← hs', ← hmapcons]
    · rw [← hcons]
      simp only [List.flatMap_append, List.flatMap_cons, List.flatMap_nil, List.append_nil]
      rw [hleaves]
      rfl
    · intro b hb
      rw [← hcons] at hb
      simp only [List.flatMap_append, List.flatMap_cons, List.flatMap_nil, List.append_nil,
        List.mem_append] at hb
      rcases hblocks b hb with hd | hd | hd
      · exact Or.inl hd
      · rw [show blocksT E (.leaf p) = [(cidT E (.leaf p), NodeF.bytes p)] from rfl] at hd
        refine Or.inr ?_
        rw [← htr]
        simp only [List.mem_singleton] at hd
        simp [hd]
      · refine Or.inr ?_
        rw [← htr]
        simp [hd]
    · intro b hb
      rw [← htr]
      simp [hb]
    · rw [← hs']

/-- Invariant of the build loop: the final peaks are the image of trees whose
leaves are the old leaves followed by the appended payloads; every block of
those trees is in the final trail; and (when at least one payload was
appended) so is the bagging spine of the final peak list. -/
theorem buildMmrFrom_inv : ∀ (payloads : List Bytes) (s : Mmr C) (acc : List (C × NodeF C))
    (ts : List Tree) (sF : Mmr C) (trailF : List (C × NodeF C)),
    s.peaks = ts.map (cidT E) →
    (∀ b ∈ ts.flatMap (blocksT E), b ∈ acc) →
    buildMmrFrom E nullCid s acc payloads = .ok (sF, trailF) →
    ∃ tsF, sF.peaks = tsF.map (cidT E) ∧
      tsF.flatMap leavesT = ts.flatMap leavesT ++ payloads ∧
      (∀ b ∈ tsF.flatMap (blocksT E), b ∈ trailF) ∧
      (payloads = [] → tsF = ts ∧ sF = s ∧ trailF = acc) ∧
      (payloads ≠ [] → ∃ t₀ rest, tsF = t₀ :: rest ∧
        ∀ b ∈ bagSpineT E t₀ rest, b ∈ trailF) := by
  intro payloads
  induction payloads with
  | nil =>
    intro s acc ts sF trailF hp hb hbuild
    have h1 : sF = s ∧ trailF = acc := by
      have hh : (Except.ok (s, acc) : Except String (Mmr C × List (C × NodeF C))) =
          .ok (sF, trailF) := hbuild
      simp only [Except.ok.injEq, Prod.mk.injEq] at hh
      exact ⟨hh.1.symm, hh.2.symm⟩
    refine ⟨ts, ?_, by simp, ?_, fun _ => ⟨rfl, h1.1, h1.2⟩, fun hn => absurd rfl hn⟩
    · rw [h1.1, hp]
    · intro b hbm
      rw [h1.2]
      exact hb b hbm
  | cons p ps IH =>
    intro s acc ts sF trailF hp hb hbuild
    unfold buildMmrFrom at hbuild
    cases ha : addLeafFull E nullCid s s.leafCount p with
    | error e => rw [ha] at hbuild; exact absurd hbuild (fun hh => Except.noConfusion hh)
    | ok r =>
      rw [ha] at hbuild
      obtain ⟨r1, r2, r3⟩ := r
      replace hbuild : buildMmrFrom E nullCid r1 (acc ++ r2) ps = .ok (sF, trailF) := hbuild
      obtain ⟨t₀, rest, hpk, hlv, hbl, hsp, _⟩ :=
        addLeafFull_tree E nullCid s ts p r1 r2 r3 hp ha
      have hb1 : ∀ b ∈ (t₀ :: rest).flatMap (blocksT E), b ∈ acc ++ r2 := by
        intro b hbm
        rcases hbl b hbm with hc | hc
        · exact List.mem_append_left _ (hb b hc)
        · exact List.mem_append_right _ hc
      obtain ⟨tsF, h1, h2, h3, h4, h5⟩ := IH r1 (acc ++ r2) (t₀ :: rest) sF trailF hpk hb1 hbuild
      refine ⟨tsF, h1, ?_, h3, fun hn => absurd hn (by simp), fun _ => ?_⟩
      · rw [h2, hlv]
        simp
      · cases hps : ps with
        | nil =>
          obtain ⟨htsF, hsF, htrailF⟩ := h4 hps
          refine ⟨t₀, rest, htsF, ?_⟩
          intro b hbm
          rw [htrailF]
          exact List.mem_append_right _ (hsp b hbm)
        | cons q qs =>
          exact h5 (by rw [hps]; simp)

end TreeLemmas

/-! ## Claim theorems -/

/-- C6. State word decoding: for every 256-bit word `w`,
`parseAccumulatorMetaBits(w)` returns the 32 peak heights as the 5-bit fields
at bits 0–159 (height `i` at bits `5i..5i+4`), `peak_count` as bits 160–164,
`leaf_count` as bits 165–196, `previous_append_block` as bits 197–228, and
`deploy_block` as bits 229–255. -/
theorem C6_state_word_decoding (w : Nat) (hw : w < 2 ^ 256) :
    parseAccumulatorMetaBits w =
      { peakHeights := (List.range 32).map (fun i => w / 2 ^ (5 * i) % 2 ^ 5)
        peakCount := w / 2 ^ 160 % 2 ^ 5
        leafCount := w / 2 ^ 165 % 2 ^ 32
        previousInsertBlockNumber := w / 2 ^ 197 % 2 ^ 32
        deployBlockNumber := w / 2 ^ 229 % 2 ^ 27 } := by
  have hmask : ∀ (x k : Nat), x &&& (2 ^ k - 1) = x % 2 ^ k := fun x k =>
    Nat.and_pow_two_sub_one_eq_mod x k
  unfold parseAccumulatorMetaBits
  congr 1
  · apply List.map_congr_left
    intro i _
    rw [Nat.shiftRight_eq_div_pow, Nat.mul_comm i 5]
    rw [show (0x1f : Nat) = 2 ^ 5 - 1 by norm_num, hmask]
  · rw [Nat.shiftRight_eq_div_pow, show (0x1f : Nat) = 2 ^ 5 - 1 by norm_num, hmask]
  · rw [Nat.shiftRight_eq_div_pow, show (0xffffffff : Nat) = 2 ^ 32 - 1 by norm_num, hmask]
  · rw [Nat.shiftRight_eq_div_pow, show (0xffffffff : Nat) = 2 ^ 32 - 1 by norm_num, hmask]
  · rw [Nat.shiftRight_eq_div_pow, show (0x7ffffff : Nat) = 2 ^ 27 - 1 by norm_num, hmask]

/-- Witness for C6 at a concrete state word. -/
theorem C6_state_word_decoding_witness :
    (2 ^ 250 + 37 * 2 ^ 165 + 5 * 2 ^ 160 + 33 * 2 ^ 10 < 2 ^ 256) ∧
    parseAccumulatorMetaBits (2 ^ 250 + 37 * 2 ^ 165 + 5 * 2 ^ 160 + 33 * 2 ^ 10) =
      { peakHeights := (List.range 32).map
          (fun i => (2 ^ 250 + 37 * 2 ^ 165 + 5 * 2 ^ 160 + 33 * 2 ^ 10) / 2 ^ (5 * i) % 2 ^ 5)
        peakCount := (2 ^ 250 + 37 * 2 ^ 165 + 5 * 2 ^ 160 + 33 * 2 ^ 10) / 2 ^ 160 % 2 ^ 5
        leafCount := (2 ^ 250 + 37 * 2 ^ 165 + 5 * 2 ^ 160 + 33 * 2 ^ 10) / 2 ^ 165 % 2 ^ 32
        previousInsertBlockNumber :=
          (2 ^ 250 + 37 * 2 ^ 165 + 5 * 2 ^ 160 + 33 * 2 ^ 10) / 2 ^ 197 % 2 ^ 32
        deployBlockNumber :=
          (2 ^ 250 + 37 * 2 ^ 165 + 5 * 2 ^ 160 + 33 * 2 ^ 10) / 2 ^ 229 % 2 ^ 27 } :=
  ⟨by norm_num, C6_state_word_decoding _ (by norm_num)⟩

/-- C9. Null-CID constant and empty root: dag-cbor of `null` is the single
byte `0xf6`; hashing it with sha2-256 and wrapping as CIDv1 codec `0x71`
yields exactly the `NULL_CID` constant, whose text form is
`bafyreifqwkmiw256ojf2zws6tzjeonw6bpd5vza4i22ccpcq4hjv2ts7cm`; and on an MMR
with no peaks (`leafCount = 0`), `rootCIDWithTrail` returns exactly this
constant with an empty trail. -/
theorem C9_null_cid_and_empty_root :
    dagCborEncode NodeF.nullNode = [0xf6] ∧
    encC NodeF.nullNode = NULL_CID ∧
    cidToString NULL_CID = NULL_CID_STR ∧
    rootCIDWithTrail encC NULL_CID ([] : List Bytes) = (NULL_CID, []) := by
  refine ⟨rfl, by decide, by decide, rfl⟩

/-- C8 (code bug). `verifyCIDAgainstRawUnencodedEncodedData` returns the
NEGATED comparison `computed.toString() !== expected.toString()`: on the
payload `0x01` paired with its own correct CID it returns `false`, although
the recomputed CID equals the expected CID — its checked (`OrThrow`) sibling
accepts the very same pair, and the dag-cbor boolean variant returns `true`
on the corresponding encoded pair. -/
theorem C8_raw_verify_returns_negated_comparison :
    verifyCIDAgainstRawUnencodedEncodedData [0x01] (encC (.bytes [0x01])) = false ∧
    verifyCIDAgainstRawUnencodedEncodedDataOrThrow [0x01] (encC (.bytes [0x01])) = .ok () ∧
    verifyCIDAgainstDagCborEncodedData (dagCborEncode (.bytes [0x01]))
      (encC (.bytes [0x01])) = true ∧
    cidBytesOf (sha256 (dagCborEncode (.bytes [0x01]))) = encC (.bytes [0x01]) := by
  refine ⟨by decide, by decide, by decide, by decide⟩

/-- C1 (code bug). Append/inverse roundtrip fails as soon as an append
performs a merge: starting from the one-leaf MMR over payload `0x11`
(peak `cid(bytes 0x11)`, root the same), appending payload `0x22` at index 1
merges once (left input `cid(bytes 0x11)`) and leaves the single peak
`link(cid 0x11, cid 0x22)` at height 1.  The inverse pushes the merged peak's
own CID down as a bogus height-0 right child; the final filter only removes a
height-0 peak equal to the fresh leaf CID `cid(bytes 0x22)`, which never
appears, so the reconstruction keeps the extra peak and bags the wrong root
instead of returning the previous state `([cid(bytes 0x11)@0], cid 0x11)`.
Stated over the free CID algebra (an injective block encoder). -/
theorem C1_inverse_roundtrip_code_bug :
    addLeafFull freeE FreeCid.nullNode ⟨[FreeCid.bytes [0x11]], 1⟩ 1 [0x22] =
      .ok (⟨[FreeCid.link (.bytes [0x11]) (.bytes [0x22])], 2⟩,
           [(FreeCid.bytes [0x22], NodeF.bytes [0x22]),
            (FreeCid.link (.bytes [0x11]) (.bytes [0x22]),
             NodeF.link (FreeCid.bytes [0x11]) (FreeCid.bytes [0x22]))],
           [FreeCid.bytes [0x11]]) ∧
    peaksWithHeights (⟨[FreeCid.link (.bytes [0x11]) (.bytes [0x22])], 2⟩ : Mmr FreeCid) =
      [⟨FreeCid.link (.bytes [0x11]) (.bytes [0x22]), 1⟩] ∧
    computePreviousRootCIDAndPeaksWithHeights freeE FreeCid.nullNode
        [⟨FreeCid.link (.bytes [0x11]) (.bytes [0x22]), 1⟩] [0x22] [FreeCid.bytes [0x11]] =
      .ok (FreeCid.link (.bytes [0x11]) (FreeCid.link (.bytes [0x11]) (.bytes [0x22])),
           [⟨FreeCid.bytes [0x11], 0⟩,
            ⟨FreeCid.link (.bytes [0x11]) (.bytes [0x22]), 0⟩]) ∧
    peaksWithHeights (⟨[FreeCid.bytes [0x11]], 1⟩ : Mmr FreeCid) =
      [⟨FreeCid.bytes [0x11], 0⟩] ∧
    (rootCIDWithTrail freeE FreeCid.nullNode
        (⟨[FreeCid.bytes [0x11]], 1⟩ : Mmr FreeCid).peaks).1 = FreeCid.bytes [0x11] ∧
    ([⟨FreeCid.bytes [0x11], 0⟩, ⟨FreeCid.link (.bytes [0x11]) (.bytes [0x22]), 0⟩] ≠
      [(⟨FreeCid.bytes [0x11], 0⟩ : PeakWithHeight FreeCid)]) ∧
    (FreeCid.link (.bytes [0x11]) (FreeCid.link (.bytes [0x11]) (.bytes [0x22])) ≠
      FreeCid.bytes [0x11]) := by
  refine ⟨by decide, by decide, by decide, by decide, by decide, by decide, by decide⟩

/-- C7 counterexample. The remote-pin failure counter is cumulative, not
consecutive-with-reset: with the default threshold (5), after one failed
remote pin followed by one successful remote pin, the adapter's counter holds
1, while the claim's consecutive counter (reset by the intervening success)
holds 0. -/
theorem C7_consecutive_reset_counterexample :
    (runPutBlocks (mkUniversalIpfsAdapter true true true true none)
        [(true, false), (true, true)]).1.remotePinFailures = 1 ∧
    claimConsecutivePinFailures [false, true] = 0 ∧ (1 : Nat) ≠ 0 := by
  refine ⟨by decide, by decide, by decide⟩

/-- C7 (amended). The failure counter counts cumulative remote-pin failures
(a success attempts the pin but never resets or changes the counter); each
failure increments it and clears the remote-pin configuration once the
counter reaches the threshold; with the configuration cleared, no later
`putBlock` call ever attempts the remote-pin POST again and the adapter state
never changes; the main put flow's outcome is independent of the breaker
fields; and the constructor's default threshold is 5. -/
theorem C7_circuit_breaker_amended :
    (∀ (s : IpfsAdapterState) (outs : List (Bool × Bool)),
      s.hasRemotePinConfig = false → runPutBlocks s outs = (s, 0)) ∧
    (∀ s : IpfsAdapterState, s.shouldPut = true → s.hasRemotePinConfig = true →
      putBlock s true true = (.ok (), s, true)) ∧
    (∀ s : IpfsAdapterState, s.shouldPut = true → s.hasRemotePinConfig = true →
      putBlock s true false =
        (.ok (),
         { s with remotePinFailures := s.remotePinFailures + 1,
                  hasRemotePinConfig :=
                    if s.remotePinFailureThreshold ≤ s.remotePinFailures + 1 then false
                    else true },
         true)) ∧
    (∀ (s : IpfsAdapterState) (mainPostOk pinOk : Bool),
      (putBlock s mainPostOk pinOk).1 =
        if !s.shouldPut then .ok ()
        else if !mainPostOk then .error "IPFS block/put failed" else .ok ()) ∧
    (mkUniversalIpfsAdapter true true true true none).remotePinFailureThreshold = 5 := by
  refine ⟨?_, ?_, ?_, ?_, rfl⟩
  · intro s outs hcfg
    induction outs with
    | nil => rfl
    | cons o rest IH =>
      have hstep : putBlock s o.1 o.2 =
          ((if !s.shouldPut then .ok ()
            else if !o.1 then .error "IPFS block/put failed" else .ok ()), s, false) := by
        unfold putBlock
        rcases hsp : s.shouldPut <;> rcases ho : o.1 <;> simp [hcfg, hsp, ho]
      show (let r := putBlock s o.1 o.2
        let tail := runPutBlocks r.2.1 rest
        (tail.1, (if r.2.2 then 1 else 0) + tail.2)) = (s, 0)
      rw [hstep]
      simp [IH]
  · intro s hput hcfg
    unfold putBlock
    simp [hput, hcfg]
  · intro s hput hcfg
    unfold putBlock
    simp [hput, hcfg]
  · intro s mainPostOk pinOk
    unfold putBlock
    rcases hsp : s.shouldPut <;> rcases hm : mainPostOk <;>
      rcases hc : s.hasRemotePinConfig <;> rcases hp : pinOk <;> simp [hsp, hm, hc, hp]

/-- Witness for C7's amended theorem: a disabled breaker stays disabled with
no pin attempts, and a successful pin leaves the counter untouched. -/
theorem C7_circuit_breaker_amended_witness :
    runPutBlocks ⟨true, true, false, 3, 5⟩ [(true, false), (true, true)] =
      (⟨true, true, false, 3, 5⟩, 0) ∧
    putBlock ⟨true, true, true, 2, 5⟩ true true = (.ok (), ⟨true, true, true, 2, 5⟩, true) :=
  ⟨C7_circuit_breaker_amended.1 _ _ rfl, C7_circuit_breaker_amended.2.1 _ rfl rfl⟩

/-- Out-of-order append rejection on the idealized (unbounded-shift) cascade:
on a structurally adequate state (at least one peak per pending merge, as
every reachable state has), an `addLeafWithTrail(leafIndex, payload)` call
fails if and only if `leafIndex` differs from the current `leafCount`. -/
theorem addLeafWithTrail_error_iff {C : Type} [DecidableEq C] (E : NodeF C → C) (nullCid : C)
    (s : Mmr C) (leafIndex : Nat) (newData : Bytes)
    (hlen : trailingOnes s.leafCount ≤ s.peaks.length) :
    (∃ e, addLeafWithTrail E nullCid s leafIndex newData = .error e) ↔
      leafIndex ≠ s.leafCount := by
  constructor
  · rintro ⟨e, he⟩ hidx
    obtain ⟨out, hout⟩ := addLeafFull_ok E nullCid s newData hlen
    rw [addLeafWithTrail, hidx, hout] at he
    simp [Except.map] at he
  · intro hidx
    refine ⟨"Expected leafIndex leafCount but got leafIndex", ?_⟩
    rw [addLeafWithTrail, addLeafFull, if_pos (fun h => hidx h.symm)]
    rfl

/-- C4 counterexample: at `leafCount = 2^32 − 1` with one peak per 1-bit of
`leafCount` (32 peaks — the structurally adequate shape every reachable state
has), the in-order append `leafIndex = leafCount` still throws, because the
JavaScript `>>` coercions make the loop condition wrap at height 32 back to
bit 0: the cascade pops all 32 peaks and throws "no peak to merge". -/
theorem C4_out_of_order_counterexample :
    trailingOnes (2 ^ 32 - 1) ≤
      ((List.range 32).map (fun i => FreeCid.bytes [i])).length ∧
    addLeafWithTrailJS freeE FreeCid.nullNode
        ⟨(List.range 32).map (fun i => FreeCid.bytes [i]), 2 ^ 32 - 1⟩
        (2 ^ 32 - 1) [9] =
      .error "MMR structure error: no peak to merge" :=
  ⟨by decide, by decide⟩

/-- C4 (amended). Out-of-order append rejection under the exact JavaScript
shift semantics: on a structurally adequate state (at least one peak per
pending merge) whose `leafCount % 2^32 ≠ 2^32 − 1` — the one residue where
the 32-bit wrap of `>>` bites — an `addLeafWithTrail(leafIndex, payload)`
call fails if and only if `leafIndex` differs from the current `leafCount`.
In this pure embedding a failed call returns no successor state, matching the
source where the out-of-order check throws before any mutation. -/
theorem C4_out_of_order_rejection_amended {C : Type} [DecidableEq C] (E : NodeF C → C)
    (nullCid : C) (s : Mmr C) (leafIndex : Nat) (newData : Bytes)
    (hlen : trailingOnes s.leafCount ≤ s.peaks.length)
    (hmod : s.leafCount % 2 ^ 32 ≠ 2 ^ 32 - 1) :
    (∃ e, addLeafWithTrailJS E nullCid s leafIndex newData = .error e) ↔
      leafIndex ≠ s.leafCount := by
  have h31 : trailingOnes s.leafCount ≤ 31 := by
    by_contra hgt
    exact hmod (mod_two_pow_of_trailingOnes_ge 32 s.leafCount (by omega))
  rw [show addLeafWithTrailJS E nullCid s leafIndex newData =
        addLeafWithTrail E nullCid s leafIndex newData from by
      rw [addLeafWithTrailJS, addLeafWithTrail,
        addLeafFullJS_eq E nullCid s leafIndex newData h31]]
  exact addLeafWithTrail_error_iff E nullCid s leafIndex newData hlen

/-- Witness for C4's amended theorem: the empty engine rejects index 5, and a
one-peak in-order append is accepted. -/
theorem C4_out_of_order_rejection_amended_witness :
    (∃ e, addLeafWithTrailJS freeE FreeCid.nullNode (emptyMmr : Mmr FreeCid) 5 [0] = .error e) ∧
    ¬(∃ e, addLeafWithTrailJS freeE FreeCid.nullNode
        (⟨[FreeCid.bytes [3]], 1⟩ : Mmr FreeCid) 1 [4] = .error e) :=
  ⟨(C4_out_of_order_rejection_amended freeE FreeCid.nullNode emptyMmr 5 [0]
      (by decide) (by decide)).mpr (by decide),
   fun h =>
    absurd ((C4_out_of_order_rejection_amended freeE FreeCid.nullNode
      ⟨[FreeCid.bytes [3]], 1⟩ 1 [4] (by decide) (by decide)).mp h) (by decide)⟩

/-- C3. MMR structural invariant: every state reachable from the empty MMR by
successful appends has exactly one peak per 1-bit of `leafCount` (so for
`leafCount < 2^32` the peak count is at most 32), and the implicit peak
heights — the 1-bit positions of `leafCount` in descending order — are
strictly decreasing and their powers of two sum to `leafCount`. -/
theorem C3_structural_invariant {C : Type} [DecidableEq C] (E : NodeF C → C) (nullCid : C)
    (s : Mmr C) (h : Reachable E nullCid s) :
    s.peaks.length = popcount s.leafCount ∧
    (bitPositionsDesc s.leafCount).length = s.peaks.length ∧
    ((bitPositionsDesc s.leafCount).map (2 ^ ·)).sum = s.leafCount ∧
    List.Pairwise (· > ·) (bitPositionsDesc s.leafCount) ∧
    (s.leafCount < 2 ^ 32 → s.peaks.length ≤ 32) := by
  have hl := reachable_peaks_length E nullCid h
  exact ⟨hl, by rw [bitPositionsDesc_length, hl], bitPositionsDesc_sum _,
    bitPositionsDesc_sorted _,
    fun hb => hl ▸ popcount_le_of_lt_two_pow 32 _ hb⟩

/-- Witness for C3 on the two-leaf state reached by appending `0x01` then
`0x02` in the free CID algebra. -/
theorem C3_structural_invariant_witness :
    (⟨[FreeCid.link (.bytes [1]) (.bytes [2])], 2⟩ : Mmr FreeCid).peaks.length =
      popcount (⟨[FreeCid.link (.bytes [1]) (.bytes [2])], 2⟩ : Mmr FreeCid).leafCount :=
  by
  have h1 : addLeafFull freeE FreeCid.nullNode (emptyMmr : Mmr FreeCid) 0 [1] =
      .ok (⟨[FreeCid.bytes [1]], 1⟩, [(FreeCid.bytes [1], NodeF.bytes [1])], []) := by
    decide
  have h2 : addLeafFull freeE FreeCid.nullNode (⟨[FreeCid.bytes [1]], 1⟩ : Mmr FreeCid) 1 [2] =
      .ok (⟨[FreeCid.link (.bytes [1]) (.bytes [2])], 2⟩,
           [(FreeCid.bytes [2], NodeF.bytes [2]),
            (FreeCid.link (.bytes [1]) (.bytes [2]),
             NodeF.link (FreeCid.bytes [1]) (FreeCid.bytes [2]))],
           [FreeCid.bytes [1]]) := by
    decide
  exact (C3_structural_invariant freeE FreeCid.nullNode _
    (Reachable.step (Reachable.step Reachable.empty h1) h2)).1

/-- C2 counterexample (the `N = 0` case of the claim as stated).  Building
the MMR from zero payloads emits an empty trail, so the everywhere-empty
block source contains every emitted CID/bytes pair; but
`resolveMerkleTreeOrThrow` on the resulting root (the null CID) cannot
return the empty payload list — it fails instead (the resolver never
produces `[]`: every successful branch returns at least one leaf). -/
theorem C2_resolver_empty_counterexample :
    buildMmr freeE FreeCid.nullNode ([] : List Bytes) = .ok (emptyMmr, []) ∧
    resolveMerkleTreeOrThrow (C := FreeCid) (fun _ => none) 1
        (rootCIDWithTrail freeE FreeCid.nullNode (emptyMmr : Mmr FreeCid).peaks).1 ≠
      .ok ([] : List Bytes) := by
  refine ⟨rfl, by decide⟩

/-- C2 (amended: at least one payload).  DAG-resolver faithfulness: if an MMR
is built by appending `p₀ … p_{N-1}` in order (`N ≥ 1`) and a block source
holds every CID/bytes pair emitted in those appends' trails, then resolving
the final root CID returns exactly `[p₀, …, p_{N-1}]` in order (for any
recursion-fuel bound above `N`; the source recursion is unbounded). -/
theorem C2_resolver_faithfulness_amended {C : Type} [DecidableEq C]
    (E : NodeF C → C) (nullCid : C)
    (payloads : List Bytes) (hne : payloads ≠ [])
    (sF : Mmr C) (trailF : List (C × NodeF C))
    (hbuild : buildMmr E nullCid payloads = .ok (sF, trailF))
    (store : C → Option (NodeF C))
    (hstore : ∀ pr ∈ trailF, store pr.1 = some pr.2)
    (fuel : Nat) (hfuel : payloads.length < fuel) :
    resolveMerkleTreeOrThrow store fuel (rootCIDWithTrail E nullCid sF.peaks).1 =
      .ok payloads := by
  obtain ⟨tsF, h1, h2, h3, _, h5⟩ :=
    buildMmrFrom_inv E nullCid payloads emptyMmr [] [] sF trailF rfl (by simp) hbuild
  obtain ⟨t₀, rest, htsF, hspine⟩ := h5 hne
  subst htsF
  have hleaves : leavesT (bagT t₀ rest) = payloads := by
    rw [bagT_leaves]
    simpa using h2
  have hroot : (rootCIDWithTrail E nullCid sF.peaks).1 = cidT E (bagT t₀ rest) := by
    rw [h1]
    show (bagPeaksWithTrail E (cidT E t₀) (rest.map (cidT E)) []).1 = _
    rw [bagPeaksWithTrail_sim]
  rw [hroot]
  have hres := resolve_tree E store (bagT t₀ rest) fuel ?_ ?_
  · rw [hres, hleaves]
  · intro b hbm
    rcases bagT_blocks E rest t₀ b hbm with hc | hc | hc
    · exact hstore b (h3 b (by rw [List.flatMap_cons]; exact List.mem_append_left _ hc))
    · exact hstore b (h3 b (by rw [List.flatMap_cons]; exact List.mem_append_right _ hc))
    · exact hstore b (hspine b hc)
  · have hlt := heightT_lt_leaves (bagT t₀ rest)
    rw [hleaves] at hlt
    omega

/-- Witness for C2's amended theorem: one payload `[7]`, the trail-backed
store, fuel 2. -/
theorem C2_resolver_faithfulness_amended_witness :
    resolveMerkleTreeOrThrow
        (fun c => if c = FreeCid.bytes [7] then some (NodeF.bytes [7]) else none) 2
        (rootCIDWithTrail freeE FreeCid.nullNode
          (⟨[FreeCid.bytes [7]], 1⟩ : Mmr FreeCid).peaks).1 =
      .ok [[7]] :=
  C2_resolver_faithfulness_amended freeE FreeCid.nullNode [[7]] (by decide)
    ⟨[FreeCid.bytes [7]], 1⟩ [(FreeCid.bytes [7], NodeF.bytes [7])] (by decide)
    (fun c => if c = FreeCid.bytes [7] then some (NodeF.bytes [7]) else none)
    (by decide) 2 (by decide)

/-- C5. Duplicate event is a state no-op: when the event's leaf index is
within both the DB's contiguous range and the MMR's committed range, both
sub-handlers return through their early guards, so `processNewLeafEvent`
leaves every stored key (leaf records and the trail log) and the MMR state
(peaks and `leafCount`) unchanged, while still notifying subscribers. -/
theorem C5_duplicate_event_noop {C : Type} [DecidableEq C] (E : NodeF C → C) (nullCid : C)
    (cidToText : C → String) (eventToString : LeafEvent C → String)
    (peaksToString : List (PeakWithHeight C) → String) (pairToString : C × NodeF C → String)
    (walkBack : Nat → Nat → Nat → Except String (List (LeafEvent C)))
    (f : Nat) (mmr : Mmr C) (st : Store) (event : LeafEvent C) (numSubscribers : Nat)
    (hdb : (event.leafIndex : Int) ≤ st.highestContiguousLeafIndexWithData)
    (hmmr : (event.leafIndex : Int) ≤ (mmr.leafCount : Int) - 1) :
    processNewLeafEvent E nullCid cidToText eventToString peaksToString pairToString walkBack
        (f + 1) mmr st event numSubscribers =
      .ok (mmr, st,
        List.replicate numSubscribers (event.leafIndex, uint8ArrayToHexString event.newData)) := by
  have hDB : processNewLeafEventForDB cidToText eventToString peaksToString walkBack
      (f + 1) st event = .ok st := by
    unfold processNewLeafEventForDB
    exact if_pos hdb
  have hMMR : processNewLeafEventForMMR E nullCid cidToText pairToString (f + 1) mmr st
      event.leafIndex event.newData = .ok (mmr, st) := by
    unfold processNewLeafEventForMMR
    exact if_pos hmmr
  unfold processNewLeafEvent
  rw [hDB]
  show (processNewLeafEventForMMR E nullCid cidToText pairToString (f + 1) mmr st
      event.leafIndex event.newData) >>= _ = _
  rw [hMMR]
  rfl

/-- Witness for C5: a store holding leaf 0 and a one-leaf MMR receiving the
leaf-0 event again. -/
theorem C5_duplicate_event_noop_witness :
    ((0 : Int) ≤ (⟨[("leaf:0:newData", "11")]⟩ : Store).highestContiguousLeafIndexWithData) ∧
    processNewLeafEvent freeE FreeCid.nullNode (fun _ => "c") (fun _ => "e") (fun _ => "p")
        (fun _ => "pr") (fun _ _ _ => .error "no rpc") 3
        ⟨[FreeCid.bytes [0x11]], 1⟩ ⟨[("leaf:0:newData", "11")]⟩
        ⟨0, 0, [0x11], [], 5, "tx", false⟩ 2 =
      .ok (⟨[FreeCid.bytes [0x11]], 1⟩, ⟨[("leaf:0:newData", "11")]⟩,
           [(0, "11"), (0, "11")]) :=
  ⟨by decide,
   C5_duplicate_event_noop freeE FreeCid.nullNode (fun _ => "c") (fun _ => "e") (fun _ => "p")
     (fun _ => "pr") (fun _ _ _ => .error "no rpc") 2
     ⟨[FreeCid.bytes [0x11]], 1⟩ ⟨[("leaf:0:newData", "11")]⟩
     ⟨0, 0, [0x11], [], 5, "tx", false⟩ 2 (by decide) (by decide)⟩

/-- C10. `processNewLeafEvent` invokes every registered leaf subscriber with
`(leafIndex, hex(newData))` unconditionally: whenever the call completes, the
notification list holds exactly one such entry per subscriber — also when
the event was a duplicate and both sub-handlers returned through their early
guards, so a subscriber can receive the same leaf index more than once. -/
theorem C10_subscribers_notified_unconditionally {C : Type} [DecidableEq C]
    (E : NodeF C → C) (nullCid : C)
    (cidToText : C → String) (eventToString : LeafEvent C → String)
    (peaksToString : List (PeakWithHeight C) → String) (pairToString : C × NodeF C → String)
    (walkBack : Nat → Nat → Nat → Except String (List (LeafEvent C)))
    (fuel : Nat) (mmr : Mmr C) (st : Store) (event : LeafEvent C) (numSubscribers : Nat)
    (out : Mmr C × Store × List (Nat × String))
    (h : processNewLeafEvent E nullCid cidToText eventToString peaksToString pairToString
        walkBack fuel mmr st event numSubscribers = .ok out) :
    out.2.2 = List.replicate numSubscribers
      (event.leafIndex, uint8ArrayToHexString event.newData) := by
  unfold processNewLeafEvent at h
  rcases hdb : processNewLeafEventForDB cidToText eventToString peaksToString walkBack
      fuel st event with e | st'
  · rw [hdb] at h
    exact absurd h (fun hh => Except.noConfusion hh)
  · rw [hdb] at h
    show out.2.2 = _
    rcases hm : processNewLeafEventForMMR E nullCid cidToText pairToString fuel mmr st'
        event.leafIndex event.newData with e | pair
    · rw [show (Except.ok st' >>= fun st' =>
          processNewLeafEventForMMR E nullCid cidToText pairToString fuel mmr st'
            event.leafIndex event.newData >>= fun x =>
            pure (x.1, x.2,
              List.replicate numSubscribers
                (event.leafIndex, uint8ArrayToHexString event.newData))) =
          (processNewLeafEventForMMR E nullCid cidToText pairToString fuel mmr st'
            event.leafIndex event.newData >>= fun x =>
            pure (x.1, x.2,
              List.replicate numSubscribers
                (event.leafIndex, uint8ArrayToHexString event.newData))) from rfl, hm] at h
      exact absurd h (fun hh => Except.noConfusion hh)
    · rw [show (Except.ok st' >>= fun st' =>
          processNewLeafEventForMMR E nullCid cidToText pairToString fuel mmr st'
            event.leafIndex event.newData >>= fun x =>
            pure (x.1, x.2,
              List.replicate numSubscribers
                (event.leafIndex, uint8ArrayToHexString event.newData))) =
          (processNewLeafEventForMMR E nullCid cidToText pairToString fuel mmr st'
            event.leafIndex event.newData >>= fun x =>
            pure (x.1, x.2,
              List.replicate numSubscribers
                (event.leafIndex, uint8ArrayToHexString event.newData))) from rfl, hm] at h
      have : out = (pair.1, pair.2,
          List.replicate numSubscribers
            (event.leafIndex, uint8ArrayToHexString event.newData)) := by
        cases h
        rfl
      rw [this]

/-- Witness for C10: two subscribers both receive `(0, "11")` for a duplicate
leaf-0 event. -/
theorem C10_subscribers_notified_unconditionally_witness :
    [((0 : Nat), "11"), (0, "11")] =
      List.replicate 2 ((0 : Nat), uint8ArrayToHexString [0x11]) :=
  C10_subscribers_notified_unconditionally freeE FreeCid.nullNode (fun _ => "c")
    (fun _ => "e") (fun _ => "p") (fun _ => "pr") (fun _ _ _ => .error "no rpc") 3
    ⟨[FreeCid.bytes [0x11]], 1⟩ ⟨[("leaf:0:newData", "11")]⟩
    ⟨0, 0, [0x11], [], 5, "tx", false⟩ 2
    (⟨[FreeCid.bytes [0x11]], 1⟩, ⟨[("leaf:0:newData", "11")]⟩, [(0, "11"), (0, "11")])
    (by decide)

end CidAcc
